import Mathlib

/-!
# browserhtml `src/browser/IssueReporter.js`

A shallow embedding of the issue reporter: the report queue reducer
(`init`, `update`, `report`, `dismiss`, `submit`) and the report encoder
(`encodeReport`), together with the ECMAScript built-in `encodeURIComponent`
that the encoder calls, and theorems about them.

JavaScript strings are sequences of 16-bit code units; a JavaScript exception
is the `error` case of `Except`.
-/

namespace IssueReporter

/-! ## JavaScript strings -/

/-- One UTF-16 code unit of a JavaScript string. -/
abbrev CodeUnit := Fin 65536

/-- A JavaScript string value: a finite sequence of 16-bit code units. -/
abbrev JSString := List CodeUnit

/-- The code unit whose numeric value is `n` (for `n < 65536`). -/
def unit (n : Nat) : CodeUnit := ⟨n % 65536, Nat.mod_lt n (by decide)⟩

/-- The JavaScript string written by an ASCII (or BMP) source literal. -/
def lit (s : String) : JSString := s.toList.map (fun c => unit c.toNat)

/-- The exceptions the modelled code can raise. -/
inductive JSError where
  | URIError
  deriving DecidableEq, Repr

deriving instance DecidableEq for Except

/-- Leading (high) surrogate code unit, 0xD800..0xDBFF. -/
def isLeadingSurrogate (c : CodeUnit) : Bool := 0xD800 ≤ c.val && c.val ≤ 0xDBFF

/-- Trailing (low) surrogate code unit, 0xDC00..0xDFFF. -/
def isTrailingSurrogate (c : CodeUnit) : Bool := 0xDC00 ≤ c.val && c.val ≤ 0xDFFF

/-- ECMAScript `String.prototype.isWellFormed`: no unpaired surrogate code unit. -/
def isWellFormed : JSString → Bool
  | [] => true
  | c :: rest =>
    if isLeadingSurrogate c then
      match rest with
      | [] => false
      | d :: rest' => isTrailingSurrogate d && isWellFormed rest'
    else if isTrailingSurrogate c then false
    else isWellFormed rest

/-! ## `encodeURIComponent` (ECMA-262, `Encode` with the `uriUnescaped` set) -/

/-- The set `uriUnescaped`: `uriAlpha`, `DecimalDigit` and `uriMark`
(`- _ . ! ~ * ' ( )`). -/
def isUnescaped (c : CodeUnit) : Bool :=
  (65 ≤ c.val && c.val ≤ 90) || (97 ≤ c.val && c.val ≤ 122) || (48 ≤ c.val && c.val ≤ 57)
  || c.val = 45 || c.val = 95 || c.val = 46 || c.val = 33 || c.val = 126
  || c.val = 42 || c.val = 39 || c.val = 40 || c.val = 41

/-- The UTF-8 transformation of a code point into its octets. -/
def utf8Octets (cp : Nat) : List Nat :=
  if cp < 0x80 then [cp]
  else if cp < 0x800 then [0xC0 + cp / 64, 0x80 + cp % 64]
  else if cp < 0x10000 then [0xE0 + cp / 4096, 0x80 + cp / 64 % 64, 0x80 + cp % 64]
  else [0xF0 + cp / 262144, 0x80 + cp / 4096 % 64, 0x80 + cp / 64 % 64, 0x80 + cp % 64]

/-- The upper-case hexadecimal digit of a value below 16. -/
def hexDigit (n : Nat) : CodeUnit := if n < 10 then unit (48 + n) else unit (55 + n)

/-- The code unit `%`. -/
def percent : CodeUnit := unit 37

/-- The three code units `%XY` for one octet. -/
def escapeOctet (b : Nat) : JSString := [percent, hexDigit (b / 16), hexDigit (b % 16)]

/-- The escapes of a sequence of octets, in order. -/
def escapeOctets : List Nat → JSString
  | [] => []
  | b :: bs => escapeOctet b ++ escapeOctets bs

/-- The code point of a surrogate pair (`UTF16SurrogatePairToCodePoint`). -/
def surrogatePairToCodePoint (lead trail : CodeUnit) : Nat :=
  (lead.val - 0xD800) * 0x400 + (trail.val - 0xDC00) + 0x10000

/-- ECMA-262 `Encode(string, uriUnescaped)`: an unescaped code unit is copied,
any other code point is replaced by the escapes of its UTF-8 octets; an
unpaired surrogate raises `URIError`. -/
def encodeURIComponent : JSString → Except JSError JSString
  | [] => .ok []
  | c :: rest =>
    if isUnescaped c then
      (encodeURIComponent rest).map (fun R => c :: R)
    else if isTrailingSurrogate c then .error .URIError
    else if isLeadingSurrogate c then
      match rest with
      | [] => .error .URIError
      | d :: rest' =>
        if isTrailingSurrogate d then
          (encodeURIComponent rest').map
            (fun R => escapeOctets (utf8Octets (surrogatePairToCodePoint c d)) ++ R)
        else .error .URIError
    else
      (encodeURIComponent rest).map (fun R => escapeOctets (utf8Octets c.val) ++ R)

/-! ## The issue reporter -/

/-- The type `Report`: the three string fields of a crash report. -/
structure Report where
  description : JSString
  url : JSString
  backtrace : JSString
  deriving DecidableEq, Repr

/-- The class `Model`: the array of pending reports. -/
structure Model where
  reports : List Report
  deriving DecidableEq, Repr

/-- The type `Action`: the closed union `Dismiss | Submit | Crash`. -/
inductive Action where
  | Dismiss
  | Submit
  | Crash (crash : Report)
  deriving DecidableEq, Repr

/-- The task built by `openURLInDefaultBrowser(url)`. -/
structure Task where
  openURL : JSString
  deriving DecidableEq, Repr

/-- The effect values the reducer returns: `Effects.none` or `Effects.perform(task)`. -/
inductive Effects where
  | none
  | perform (task : Task)
  deriving DecidableEq, Repr

/-- The function `openURLInDefaultBrowser(url)`: constructing the task runs nothing. -/
def openURLInDefaultBrowser (url : JSString) : Task := ⟨url⟩

/-- The function `init(reports = [])`: an absent argument is the empty array. -/
def init (reports : Option (List Report)) : Model × Effects :=
  (⟨reports.getD []⟩, Effects.none)

/-- The Markdown document of the template literal passed to
`encodeURIComponent` in `encodeReport`. -/
def reportDocument (report : Report) : JSString :=
  lit "\n" ++ report.description ++ lit "\n### URL:\n" ++ report.url
    ++ lit "\n### Backtrace:\n```\n" ++ report.backtrace ++ lit "\n```\n"

/-- The fixed head of the issue URL, up to and including `title=`. -/
def issueURLHead : JSString := lit "https://github.com/servo/servo/issues/new?title="

/-- The literal between the title and the body. -/
def bodySeparator : JSString := lit "&body="

/-- The function `encodeReport(report)`: the body is encoded first, then the title. -/
def encodeReport (report : Report) : Except JSError JSString := do
  let body ← encodeURIComponent (reportDocument report)
  let title ← encodeURIComponent report.description
  pure (issueURLHead ++ title ++ bodySeparator ++ body)

/-- The function `report(model, report)`: the new report goes in front. -/
def report (model : Model) (report : Report) : Model × Effects :=
  (⟨report :: model.reports⟩, Effects.none)

/-- The function `dismiss(model)`: `model.reports.slice(1)`. -/
def dismiss (model : Model) : Model × Effects :=
  (⟨model.reports.drop 1⟩, Effects.none)

/-- The function `submit(state)`: `[report, ...reports] = state.reports`; the effect is
built (and `encodeReport` evaluated) before the pair is returned. -/
def submit (state : Model) : Except JSError (Model × Effects) :=
  match state.reports with
  | [] => .ok (⟨[]⟩, Effects.none)
  | report :: reports => do
    let url ← encodeReport report
    pure (⟨reports⟩, Effects.perform (openURLInDefaultBrowser url))

/-- The function `update(model, action)` on the three kinds of the type `Action`;
the `default` branch of the switch is not reached by a value of that type. -/
def update (model : Model) (action : Action) : Except JSError (Model × Effects) :=
  match action with
  | .Crash crash => .ok (report model crash)
  | .Dismiss => .ok (dismiss model)
  | .Submit => submit model

/-- The report `render` hands to `renderReport`: `model.reports[0]` when
`model.reports.length > 0`, none when the closed dialog is rendered. -/
def displayedReport (model : Model) : Option Report :=
  if model.reports.length > 0 then model.reports[0]? else none

/-- Folding a sequence of actions through `update`, collecting the effect of
each step; an exception raised by a step ends the run. -/
def run (model : Model) : List Action → Except JSError (Model × List Effects)
  | [] => .ok (model, [])
  | a :: rest =>
    match update model a with
    | .error e => .error e
    | .ok (model', fx) =>
      match run model' rest with
      | .error e => .error e
      | .ok (final, fxs) => .ok (final, fx :: fxs)

/-- Whether an action is a `Crash`. -/
def isCrash : Action → Bool
  | .Crash _ => true
  | _ => false

/-- Whether an action is a `Dismiss` or a `Submit`. -/
def isRemoval : Action → Bool
  | .Dismiss => true
  | .Submit => true
  | .Crash _ => false

/-- The number of `Crash` actions in a sequence. -/
def crashCount (actions : List Action) : Nat := actions.countP isCrash

/-- The number of `Dismiss` or `Submit` actions of a run that were issued
while the queue of the state they were applied to was non-empty. -/
def removalsWhileNonEmpty (model : Model) : List Action → Nat
  | [] => 0
  | a :: rest =>
    (if isRemoval a && decide (0 < model.reports.length) then 1 else 0) +
      match update model a with
      | .error _ => 0
      | .ok (model', _) => removalsWhileNonEmpty model' rest

/-! ## `decodeURIComponent` (ECMA-262, `Decode` with the empty reserved set)

The percent-decoding that the statements about `encodeReport` refer to. -/

/-- The value of a hexadecimal digit, of either case. -/
def hexValue (c : CodeUnit) : Option Nat :=
  if 48 ≤ c.val ∧ c.val ≤ 57 then some (c.val - 48)
  else if 65 ≤ c.val ∧ c.val ≤ 70 then some (c.val - 55)
  else if 97 ≤ c.val ∧ c.val ≤ 102 then some (c.val - 87)
  else none

/-- The operation `ParseHexOctet`: the octet written by two hexadecimal digits. -/
def parseHexOctet (h1 h2 : CodeUnit) : Option Nat :=
  match hexValue h1, hexValue h2 with
  | some a, some b => some (16 * a + b)
  | _, _ => none

/-- One escape `%XY` at the head of a string: its octet and the rest. -/
def readEscape : JSString → Option (Nat × JSString)
  | p :: h1 :: h2 :: rest =>
    if p = percent then (parseHexOctet h1 h2).map (fun b => (b, rest)) else none
  | _ => none

/-- The octets of `n` consecutive escapes and the rest of the string. -/
def readEscapes : Nat → JSString → Option (List Nat × JSString)
  | 0, s => some ([], s)
  | n + 1, s =>
    match readEscape s with
    | none => none
    | some (b, s') =>
      match readEscapes n s' with
      | none => none
      | some (bs, s'') => some (b :: bs, s'')

/-- The number of leading 1 bits of an octet. -/
def leadingOnes (b : Nat) : Nat :=
  if b < 0x80 then 0 else if b < 0xC0 then 1 else if b < 0xE0 then 2
  else if b < 0xF0 then 3 else if b < 0xF8 then 4 else if b < 0xFC then 5
  else if b < 0xFE then 6 else if b < 0xFF then 7 else 8

/-- A UTF-8 continuation octet, 0x80..0xBF. -/
def isContinuation (b : Nat) : Bool := 0x80 ≤ b && b ≤ 0xBF

/-- The code point of a multi-octet UTF-8 sequence, if the sequence is a valid
encoding (continuation octets in range, shortest form, no surrogate, at most
0x10FFFF). -/
def utf8CodePoint : List Nat → Option Nat
  | [b1, b2] =>
    let v := (b1 - 0xC0) * 64 + (b2 - 0x80)
    if isContinuation b2 && decide (0x80 ≤ v) then some v else none
  | [b1, b2, b3] =>
    let v := (b1 - 0xE0) * 4096 + (b2 - 0x80) * 64 + (b3 - 0x80)
    if isContinuation b2 && isContinuation b3 && decide (0x800 ≤ v)
        && !(decide (0xD800 ≤ v) && decide (v ≤ 0xDFFF)) then some v else none
  | [b1, b2, b3, b4] =>
    let v := (b1 - 0xF0) * 262144 + (b2 - 0x80) * 4096 + (b3 - 0x80) * 64 + (b4 - 0x80)
    if isContinuation b2 && isContinuation b3 && isContinuation b4
        && decide (0x10000 ≤ v) && decide (v ≤ 0x10FFFF) then some v else none
  | _ => none

/-- The operation `UTF16EncodeCodePoint`. -/
def utf16Encode (cp : Nat) : JSString :=
  if cp ≤ 0xFFFF then [unit cp]
  else [unit ((cp - 0x10000) / 0x400 + 0xD800), unit ((cp - 0x10000) % 0x400 + 0xDC00)]

/-- The loop of `Decode`; every iteration consumes at least one code unit, so
fuel equal to the length of the string is never used up. -/
def decodeLoop : Nat → JSString → Except JSError JSString
  | _, [] => .ok []
  | 0, _ :: _ => .error .URIError
  | fuel + 1, c :: rest =>
    if c = percent then
      match readEscape (c :: rest) with
      | none => .error .URIError
      | some (b, rest1) =>
        if leadingOnes b = 0 then
          (decodeLoop fuel rest1).map (fun R => unit b :: R)
        else if leadingOnes b = 1 ∨ 4 < leadingOnes b then .error .URIError
        else
          match readEscapes (leadingOnes b - 1) rest1 with
          | none => .error .URIError
          | some (bs, rest2) =>
            match utf8CodePoint (b :: bs) with
            | none => .error .URIError
            | some v => (decodeLoop fuel rest2).map (fun R => utf16Encode v ++ R)
    else
      (decodeLoop fuel rest).map (fun R => c :: R)

/-- The function `decodeURIComponent(string)`. -/
def decodeURIComponent (s : JSString) : Except JSError JSString := decodeLoop s.length s

/-- Whether the three strings of a report have no unpaired surrogate. -/
def isWellFormedReport (r : Report) : Bool :=
  isWellFormed r.description && isWellFormed r.url && isWellFormed r.backtrace

/-- An upper-case hexadecimal digit, `0`..`9` or `A`..`F`. -/
def isUpperHexDigit (c : CodeUnit) : Bool :=
  (48 ≤ c.val && c.val ≤ 57) || (65 ≤ c.val && c.val ≤ 70)

/-- A string made only of unescaped characters and escapes `%XY` with two
upper-case hexadecimal digits. -/
def isEscapedForm : JSString → Bool
  | [] => true
  | [c] => isUnescaped c
  | [c, d] => isUnescaped c && isUnescaped d
  | c :: h1 :: h2 :: rest =>
    if isUnescaped c then isEscapedForm (h1 :: h2 :: rest)
    else decide (c = percent) && isUpperHexDigit h1 && isUpperHexDigit h2 && isEscapedForm rest

/-- The line feed code unit. -/
def lineFeed : CodeUnit := unit 10

/-- The text before the first occurrence of a separator in a string and the
text after that occurrence. -/
def splitAtFirst (sep : JSString) : JSString → Option (JSString × JSString)
  | [] => if sep = [] then some ([], []) else none
  | c :: rest =>
    if sep.isPrefixOf (c :: rest) then some ([], (c :: rest).drop sep.length)
    else (splitAtFirst sep rest).map (fun p => (c :: p.1, p.2))

/-- The rest of a string that starts with the given literal. -/
def dropLiteral (p s : JSString) : Option JSString :=
  if s.take p.length = p then some (s.drop p.length) else none

/-- The front of a string that ends with the given literal. -/
def dropLiteralEnd (p s : JSString) : Option JSString :=
  if s.drop (s.length - p.length) = p then some (s.take (s.length - p.length)) else none

/-- A reader of the Markdown document built by `encodeReport`: after the
leading line feed, the description is the text before the first URL heading, the
url the text between that heading and the first Backtrace heading with its
opening fence, the backtrace what follows up to the final closing fence. -/
def parseDocument (doc : JSString) : Option Report :=
  (dropLiteral (lit "\n") doc).bind fun s1 =>
  (splitAtFirst (lit "\n### URL:\n") s1).bind fun p1 =>
  (splitAtFirst (lit "\n### Backtrace:\n```\n") p1.2).bind fun p2 =>
  (dropLiteralEnd (lit "\n```\n") p2.2).map fun backtrace =>
  ⟨p1.1, p2.1, backtrace⟩

/-- The reports in whose document the separators written by `encodeReport` are
the first ones: no `\n### URL:\n` starts inside the description and no
`\n### Backtrace:\n` with its opening fence starts inside the url. -/
abbrev isSeparable (r : Report) : Prop :=
  ¬ List.IsInfix (lit "\n### URL:\n") (r.description ++ lit "\n### URL:") ∧
  ¬ List.IsInfix (lit "\n### Backtrace:\n```\n") (r.url ++ lit "\n### Backtrace:\n```")

/-- The report read back from an encoded body: percent-decoding, then
`parseDocument`. -/
def recoverReport (body : JSString) : Option Report :=
  match decodeURIComponent body with
  | .error _ => none
  | .ok doc => parseDocument doc

/-- A report with an unpaired leading surrogate in its description. -/
def loneSurrogateReport : Report := ⟨[unit 0xD800], lit "http://x", lit "line1"⟩

/-- A report with an unpaired trailing surrogate in its backtrace. -/
def loneTrailingReport : Report := ⟨lit "Crash A", lit "http://x", [unit 0xDC00]⟩

/-- A report whose description holds a line that looks like the URL heading. -/
def headingInDescription : Report := ⟨lit "a\n### URL:\nb", lit "c", lit "d"⟩

/-- A report whose url holds a line that looks like the URL heading. -/
def headingInURL : Report := ⟨lit "a", lit "b\n### URL:\nc", lit "d"⟩

/-- A report with a description of two lines. -/
def twoLineReport : Report := ⟨lit "panicked at x\nnote: y", lit "http://x", lit "line1"⟩

/-- The issue URL of `twoLineReport`. -/
def twoLineURL : JSString :=
  lit "https://github.com/servo/servo/issues/new?title=panicked%20at%20x%0Anote%3A%20y&body=%0Apanicked%20at%20x%0Anote%3A%20y%0A%23%23%23%20URL%3A%0Ahttp%3A%2F%2Fx%0A%23%23%23%20Backtrace%3A%0A%60%60%60%0Aline1%0A%60%60%60%0A"

/-- The scenario report `Crash A`. -/
def crashA : Report := ⟨lit "Crash A", lit "http://x", lit "line1"⟩

/-- The issue URL of `crashA`. -/
def crashAURL : JSString :=
  lit "https://github.com/servo/servo/issues/new?title=Crash%20A&body=%0ACrash%20A%0A%23%23%23%20URL%3A%0Ahttp%3A%2F%2Fx%0A%23%23%23%20Backtrace%3A%0A%60%60%60%0Aline1%0A%60%60%60%0A"

/-- The encoded body shared by `headingInDescription` and `headingInURL`. -/
def sharedBody : JSString :=
  lit "%0Aa%0A%23%23%23%20URL%3A%0Ab%0A%23%23%23%20URL%3A%0Ac%0A%23%23%23%20Backtrace%3A%0A%60%60%60%0Ad%0A%60%60%60%0A"

/-! ## Running the task of an effect

The host function `window.openURLInDefaultBrowser` and the `reflex` runtime that
performs an effect are outside the repository; they are modelled only as far as
the executor of the task in `openURLInDefaultBrowser` uses them. -/

/-- A value thrown by the host function. -/
structure HostError where
  message : JSString
  deriving DecidableEq, Repr

/-- The host function `window.openURLInDefaultBrowser`: on a URL it returns or
throws. -/
abbrev Host := JSString → Except HostError Unit

/-- A call the executor of a task makes to one of its two arguments:
`succeed(value)`, whose value the runtime feeds back as an action, or
`fail(error)`. -/
inductive Callback where
  | succeed (value : Action)
  | fail (error : HostError)
  deriving DecidableEq, Repr

/-- The statement `try { body } catch (error) { handler }`. -/
def tryCatch {ε α : Type} (body : Except ε α) (handler : ε → Except ε α) : Except ε α :=
  match body with
  | .ok a => .ok a
  | .error e => handler e

/-- The executor of the task built by `openURLInDefaultBrowser(url)`:
`try { window.openURLInDefaultBrowser(url) } catch(error) {}`, with no call of
`succeed` or `fail`. The result lists the calls made to the two callbacks. -/
def Task.execute (task : Task) (host : Host) : Except HostError (List Callback) :=
  match tryCatch (host task.openURL) (fun _ => .ok ()) with
  | .error e => .error e
  | .ok _ => .ok []

/-- The action a callback feeds back, if any. -/
def Callback.followUp : Callback → Option Action
  | .succeed value => some value
  | .fail _ => none

/-- One turn of the runtime: `update`, then the effect is performed with the
host, giving the next state and the actions fed back into `update`. An
exception of `update` is on the left, one escaping the task on the right. -/
def dispatch (host : Host) (model : Model) (action : Action) :
    Except (JSError ⊕ HostError) (Model × List Action) :=
  match update model action with
  | .error e => .error (.inl e)
  | .ok (model', fx) =>
    match fx with
    | .none => .ok (model', [])
    | .perform task =>
      match task.execute host with
      | .error e => .error (.inr e)
      | .ok calls => .ok (model', calls.filterMap Callback.followUp)

/-- A host on which opening a URL always works. -/
def workingHost : Host := fun _ => .ok ()

/-- A host on which opening a URL always throws. -/
def failingHost : Host := fun _ => .error ⟨lit "no browser"⟩

/-! ## Rendering -/

/-- The keys of `styleSheet`. -/
inductive StyleName where
  | base
  | dismissButton
  | submitButton
  | backtrace
  | header
  | note
  deriving DecidableEq, Repr

/-- The address the view forwards actions to. -/
structure Address where
  id : Nat
  deriving DecidableEq, Repr

/-- The handler `forward(address, always(action))`. -/
structure Handler where
  address : Address
  action : Action
  deriving DecidableEq, Repr

/-- An element inside the dialog: tag, style, click handler and text children. -/
structure Element where
  tag : String
  style : StyleName
  onClick : Option Handler
  children : List JSString
  deriving DecidableEq, Repr

/-- The virtual node `html.dialog(properties, children)`. -/
structure DOM where
  isOpen : Bool
  style : Option StyleName
  children : List Element
  deriving DecidableEq, Repr

/-- The function `renderReport(report, address)`. -/
def renderReport (report : Report) (address : Address) : DOM :=
  { isOpen := true
    style := some .base
    children :=
      [ ⟨"header", .header, none,
          [lit "Servo has encountered a problem: " ++ report.description ++ lit " ("
            ++ report.url ++ lit ")"]⟩
      , ⟨"button", .dismissButton, some ⟨address, .Dismiss⟩, [lit "✕"]⟩
      , ⟨"pre", .backtrace, none, [report.backtrace]⟩
      , ⟨"button", .submitButton, some ⟨address, .Submit⟩, [lit "Click to submit report"]⟩
      , ⟨"aside", .note, none,
          [lit "github.com will open in your default browser, with a prefilled issue"]⟩ ] }

/-- The function `render(model, address)`. -/
def render (model : Model) (address : Address) : DOM :=
  if h : model.reports.length > 0 then
    renderReport (model.reports.get ⟨0, h⟩) address
  else
    { isOpen := false, style := none, children := [] }

/-! ## Reports of a run -/

/-- The reports of the `Crash` actions of a sequence, in order of arrival. -/
def crashReports : List Action → List Report
  | [] => []
  | .Crash r :: rest => r :: crashReports rest
  | _ :: rest => crashReports rest

/-- A second scenario report, `Crash B`. -/
def crashB : Report := ⟨lit "Crash B", lit "http://y", lit "line2"⟩

/-- The reports removed in a run: for each `Dismiss` or `Submit`, the report
displayed in the state the action was applied to, if there was one. -/
def removedReports (model : Model) : List Action → List Report
  | [] => []
  | a :: rest =>
    (if isRemoval a then (displayedReport model).toList else []) ++
      match update model a with
      | .error _ => []
      | .ok (model', _) => removedReports model' rest

/-! ## The queue reducer -/

theorem update_submit_cons (h : Report) (t : List Report) :
    update ⟨h :: t⟩ .Submit =
      (encodeReport h).map
        (fun url => ((⟨t⟩ : Model), Effects.perform (openURLInDefaultBrowser url))) := by
  simp only [update, submit]
  cases encodeReport h <;> rfl

/-- C1: on a non-empty queue `h :: t`, `update` with `Submit` gives the queue `t`
and the single effect performing `openURLInDefaultBrowser` on the value of
`encodeReport h`, the report that was first before the removal (an exception of
`encodeReport h` is the only other outcome). -/
theorem submit_nonempty (h : Report) (t : List Report) :
    update ⟨h :: t⟩ .Submit =
      (encodeReport h).map
        (fun url => ((⟨t⟩ : Model), Effects.perform (openURLInDefaultBrowser url))) :=
  update_submit_cons h t

/-- C2: `update` with `Crash r` gives the queue `r :: q` and no effect, whatever
`q` holds: the length grows by one and `r` is the displayed report. -/
theorem crash_prepends (model : Model) (r : Report) :
    ∃ model', update model (.Crash r) = .ok (model', Effects.none) ∧
      model'.reports = r :: model.reports ∧
      model'.reports.length = model.reports.length + 1 ∧
      displayedReport model' = some r :=
  ⟨⟨r :: model.reports⟩, rfl, rfl, rfl, by simp [displayedReport]⟩

/-- C3: on a non-empty queue `h :: t`, `update` with `Dismiss` gives the queue
`t` and no effect. -/
theorem dismiss_nonempty (h : Report) (t : List Report) :
    update ⟨h :: t⟩ .Dismiss = .ok (⟨t⟩, Effects.none) := rfl

theorem run_removals_empty (actions : List Action)
    (hrem : ∀ a ∈ actions, a = Action.Dismiss ∨ a = Action.Submit) :
    run ⟨[]⟩ actions = .ok (⟨[]⟩, List.replicate actions.length Effects.none) := by
  induction actions with
  | nil => rfl
  | cons a rest ih =>
    have hrest := ih (fun b hb => hrem b (List.mem_cons_of_mem a hb))
    rcases hrem a (List.mem_cons_self a rest) with h | h <;> subst h <;>
      simp [run, update, dismiss, submit, hrest, List.replicate_succ]

/-- C4: on the empty queue `Dismiss` and `Submit` both give the empty queue and
no effect, and so does any sequence of them: every step of the run has the
effect `Effects.none` and the final queue is empty. -/
theorem removal_on_empty :
    update ⟨[]⟩ .Dismiss = .ok (⟨[]⟩, Effects.none) ∧
    update ⟨[]⟩ .Submit = .ok (⟨[]⟩, Effects.none) ∧
    ∀ actions : List Action, (∀ a ∈ actions, a = Action.Dismiss ∨ a = Action.Submit) →
      run ⟨[]⟩ actions = .ok (⟨[]⟩, List.replicate actions.length Effects.none) :=
  ⟨rfl, rfl, run_removals_empty⟩

/-- The run `Dismiss, Submit, Submit` from the empty queue. -/
theorem removal_on_empty_witness :
    run ⟨[]⟩ [.Dismiss, .Submit, .Submit] = .ok (⟨[]⟩, [.none, .none, .none]) :=
  removal_on_empty.2.2 [.Dismiss, .Submit, .Submit] (by decide)

theorem update_length (model model' : Model) (a : Action) (fx : Effects)
    (h : update model a = .ok (model', fx)) :
    model'.reports.length + (if isRemoval a && decide (0 < model.reports.length) then 1 else 0)
      = model.reports.length + (if isCrash a then 1 else 0) := by
  cases a with
  | Crash r =>
    simp only [update, report, Except.ok.injEq, Prod.mk.injEq] at h
    rw [← h.1]; simp [isRemoval, isCrash]
  | Dismiss =>
    simp only [update, dismiss, Except.ok.injEq, Prod.mk.injEq] at h
    rw [← h.1]
    cases hq : model.reports <;> simp [isRemoval, isCrash]
  | Submit =>
    obtain ⟨q⟩ := model
    cases q with
    | nil =>
      simp only [update, submit, Except.ok.injEq, Prod.mk.injEq] at h
      rw [← h.1]; simp [isRemoval, isCrash]
    | cons r rs =>
      rw [update_submit_cons] at h
      cases hu : encodeReport r with
      | error e => rw [hu] at h; cases h
      | ok url =>
        rw [hu] at h
        simp only [Except.map, Except.ok.injEq, Prod.mk.injEq] at h
        rw [← h.1]; simp [isRemoval, isCrash]

theorem run_length (actions : List Action) :
    ∀ (model final : Model) (fxs : List Effects), run model actions = .ok (final, fxs) →
      final.reports.length + removalsWhileNonEmpty model actions
        = model.reports.length + crashCount actions := by
  induction actions with
  | nil =>
    intro model final fxs h
    simp only [run, Except.ok.injEq, Prod.mk.injEq] at h
    simp [removalsWhileNonEmpty, crashCount, h.1]
  | cons a rest ih =>
    intro model final fxs h
    simp only [run] at h
    cases hu : update model a with
    | error e => rw [hu] at h; cases h
    | ok p =>
      obtain ⟨model', fx⟩ := p
      rw [hu] at h
      dsimp only at h
      cases hr : run model' rest with
      | error e => rw [hr] at h; cases h
      | ok q =>
        obtain ⟨final', fxs'⟩ := q
        rw [hr] at h
        simp only [Except.ok.injEq, Prod.mk.injEq] at h
        have h1 := ih model' final' fxs' hr
        have h2 := update_length model model' a fx hu
        rw [h.1] at h1
        simp only [removalsWhileNonEmpty, hu, crashCount, List.countP_cons] at h1 h2 ⊢
        omega

/-- C5: after a run of actions from `init(seed)` the length of the queue is the
length of the seed plus the number of `Crash` actions minus the number of
`Dismiss` or `Submit` actions issued on a non-empty queue, and that difference is
never negative. -/
theorem queue_length_accounting (seed : List Report) (actions : List Action)
    (final : Model) (fxs : List Effects)
    (h : run (init (some seed)).1 actions = .ok (final, fxs)) :
    (final.reports.length : Int)
        = seed.length + crashCount actions - removalsWhileNonEmpty ⟨seed⟩ actions ∧
      removalsWhileNonEmpty ⟨seed⟩ actions ≤ seed.length + crashCount actions := by
  have := run_length actions ⟨seed⟩ final fxs h
  simp only at this
  omega


/-! ## Percent-decoding inverts percent-encoding -/

theorem unit_val (n : Nat) (h : n < 65536) : (unit n).val = n := by
  simp [unit, Nat.mod_eq_of_lt h]

theorem unit_of_val (c : CodeUnit) : unit c.val = c := by
  apply Fin.ext
  exact unit_val c.val c.isLt

theorem hexValue_hexDigit (n : Nat) (h : n < 16) : hexValue (hexDigit n) = some n := by
  interval_cases n <;> rfl

theorem parseHexOctet_hexDigit (b : Nat) (h : b < 256) :
    parseHexOctet (hexDigit (b / 16)) (hexDigit (b % 16)) = some b := by
  have h1 : b / 16 < 16 := by omega
  have h2 : b % 16 < 16 := by omega
  simp only [parseHexOctet, hexValue_hexDigit _ h1, hexValue_hexDigit _ h2]
  congr 1
  omega

theorem readEscape_escapeOctet (b : Nat) (h : b < 256) (s : JSString) :
    readEscape (escapeOctet b ++ s) = some (b, s) := by
  simp [escapeOctet, readEscape, parseHexOctet_hexDigit b h]

theorem readEscapes_escapeOctets (bs : List Nat) (h : ∀ b ∈ bs, b < 256) (s : JSString) :
    readEscapes bs.length (escapeOctets bs ++ s) = some (bs, s) := by
  induction bs with
  | nil => rfl
  | cons b bs ih =>
    have hb : b < 256 := h b (List.mem_cons_self b bs)
    have hbs := ih (fun x hx => h x (List.mem_cons_of_mem b hx))
    simp only [List.length_cons, readEscapes, escapeOctets, List.append_assoc,
      readEscape_escapeOctet b hb, hbs]

theorem decodeLoop_escapeOctets (fuel b : Nat) (bs : List Nat) (s : JSString) (hb : b < 256) :
    decodeLoop (fuel + 1) (escapeOctets (b :: bs) ++ s) =
      if leadingOnes b = 0 then
        (decodeLoop fuel (escapeOctets bs ++ s)).map (fun R => unit b :: R)
      else if leadingOnes b = 1 ∨ 4 < leadingOnes b then .error .URIError
      else
        match readEscapes (leadingOnes b - 1) (escapeOctets bs ++ s) with
        | none => .error .URIError
        | some (bs', rest2) =>
          match utf8CodePoint (b :: bs') with
          | none => .error .URIError
          | some v => (decodeLoop fuel rest2).map (fun R => utf16Encode v ++ R) := by
  have h := readEscape_escapeOctet b hb (escapeOctets bs ++ s)
  simp only [escapeOctets, List.append_assoc]
  simp only [escapeOctet, List.cons_append, List.nil_append] at h ⊢
  rw [decodeLoop]
  simp only [if_true, h]

theorem utf8Octets_lt (cp : Nat) (h : cp < 0x110000) : ∀ b ∈ utf8Octets cp, b < 256 := by
  intro b hb
  unfold utf8Octets at hb
  split_ifs at hb <;> simp at hb <;> omega

theorem leadingOnes_two (b : Nat) (h : 0xC0 ≤ b) (h' : b < 0xE0) : leadingOnes b = 2 := by
  simp only [leadingOnes]; split_ifs <;> omega

theorem leadingOnes_three (b : Nat) (h : 0xE0 ≤ b) (h' : b < 0xF0) : leadingOnes b = 3 := by
  simp only [leadingOnes]; split_ifs <;> omega

theorem leadingOnes_four (b : Nat) (h : 0xF0 ≤ b) (h' : b < 0xF8) : leadingOnes b = 4 := by
  simp only [leadingOnes]; split_ifs <;> omega

theorem utf8CodePoint_two (cp : Nat) (c1 : ¬cp < 128) (c2 : cp < 2048) :
    utf8CodePoint [0xC0 + cp / 64, 0x80 + cp % 64] = some cp := by
  have e : (0xC0 + cp / 64 - 0xC0) * 64 + (0x80 + cp % 64 - 0x80) = cp := by omega
  unfold utf8CodePoint
  simp only [e, isContinuation]
  rw [if_pos]
  simp only [Bool.and_eq_true, decide_eq_true_eq]
  omega

theorem utf8CodePoint_three (cp : Nat) (c2 : ¬cp < 2048) (c3 : cp < 65536)
    (h2 : ¬(55296 ≤ cp ∧ cp ≤ 57343)) :
    utf8CodePoint [0xE0 + cp / 4096, 0x80 + cp / 64 % 64, 0x80 + cp % 64] = some cp := by
  have e : (0xE0 + cp / 4096 - 0xE0) * 4096 + (0x80 + cp / 64 % 64 - 0x80) * 64
      + (0x80 + cp % 64 - 0x80) = cp := by omega
  unfold utf8CodePoint
  simp only [e, isContinuation]
  rw [if_pos]
  simp only [Bool.and_eq_true, decide_eq_true_eq, Bool.not_eq_true', Bool.and_eq_false_imp,
    decide_eq_false_iff_not]
  omega

theorem utf8CodePoint_four (cp : Nat) (c3 : ¬cp < 65536) (h1 : cp < 1114112) :
    utf8CodePoint
      [0xF0 + cp / 262144, 0x80 + cp / 4096 % 64, 0x80 + cp / 64 % 64, 0x80 + cp % 64]
      = some cp := by
  have e : (0xF0 + cp / 262144 - 0xF0) * 262144 + (0x80 + cp / 4096 % 64 - 0x80) * 4096
      + (0x80 + cp / 64 % 64 - 0x80) * 64 + (0x80 + cp % 64 - 0x80) = cp := by omega
  unfold utf8CodePoint
  simp only [e, isContinuation]
  rw [if_pos]
  simp only [Bool.and_eq_true, decide_eq_true_eq]
  omega

theorem decodeLoop_scalar (fuel cp : Nat) (s : JSString)
    (h1 : cp < 0x110000) (h2 : ¬ (0xD800 ≤ cp ∧ cp ≤ 0xDFFF)) :
    decodeLoop (fuel + 1) (escapeOctets (utf8Octets cp) ++ s) =
      (decodeLoop fuel s).map (fun R => utf16Encode cp ++ R) := by
  have hlt := utf8Octets_lt cp h1
  unfold utf8Octets at hlt ⊢
  split_ifs at hlt ⊢ with c1 c2 c3
  · rw [decodeLoop_escapeOctets _ _ _ _ (by omega)]
    have : leadingOnes cp = 0 := by simp [leadingOnes, c1]
    simp [this, utf16Encode, escapeOctets, show cp ≤ 65535 by omega]
  · rw [decodeLoop_escapeOctets _ _ _ _ (by omega)]
    have hn : leadingOnes (0xC0 + cp / 64) = 2 := by
      apply leadingOnes_two <;> omega
    have hr := readEscapes_escapeOctets [0x80 + cp % 64]
      (fun b hb => hlt b (List.mem_cons_of_mem _ hb)) s
    simp only [List.length_singleton] at hr
    simp [hn, hr, utf8CodePoint_two cp c1 c2]
  · rw [decodeLoop_escapeOctets _ _ _ _ (by omega)]
    have hn : leadingOnes (0xE0 + cp / 4096) = 3 := by
      apply leadingOnes_three <;> omega
    have hr := readEscapes_escapeOctets [0x80 + cp / 64 % 64, 0x80 + cp % 64]
      (fun b hb => hlt b (List.mem_cons_of_mem _ hb)) s
    simp only [List.length_cons, List.length_singleton, List.length_nil] at hr
    simp [hn, hr, utf8CodePoint_three cp c2 c3 h2]
  · rw [decodeLoop_escapeOctets _ _ _ _ (by omega)]
    have hn : leadingOnes (0xF0 + cp / 262144) = 4 := by
      apply leadingOnes_four <;> omega
    have hr := readEscapes_escapeOctets
      [0x80 + cp / 4096 % 64, 0x80 + cp / 64 % 64, 0x80 + cp % 64]
      (fun b hb => hlt b (List.mem_cons_of_mem _ hb)) s
    simp only [List.length_cons, List.length_singleton, List.length_nil] at hr
    simp [hn, hr, utf8CodePoint_four cp c3 h1]

theorem except_map_eq_ok {ε α β : Type} (f : α → β) (x : Except ε α) (y : β)
    (h : x.map f = .ok y) : ∃ a, x = .ok a ∧ y = f a := by
  cases x with
  | error e => cases h
  | ok a => exact ⟨a, rfl, by simpa [Except.map] using h.symm⟩

theorem utf16Encode_unit (c : CodeUnit) : utf16Encode c.val = [c] := by
  have := c.isLt
  simp [utf16Encode, unit_of_val, show c.val ≤ 65535 by omega]

theorem surrogatePair_bounds (c d : CodeUnit) (hc : isLeadingSurrogate c = true)
    (hd : isTrailingSurrogate d = true) :
    0x10000 ≤ surrogatePairToCodePoint c d ∧ surrogatePairToCodePoint c d < 0x110000 := by
  simp only [isLeadingSurrogate, isTrailingSurrogate, Bool.and_eq_true, decide_eq_true_eq]
    at hc hd
  simp only [surrogatePairToCodePoint]
  omega

theorem utf16Encode_surrogatePair (c d : CodeUnit) (hc : isLeadingSurrogate c = true)
    (hd : isTrailingSurrogate d = true) :
    utf16Encode (surrogatePairToCodePoint c d) = [c, d] := by
  have hb := surrogatePair_bounds c d hc hd
  simp only [isLeadingSurrogate, isTrailingSurrogate, Bool.and_eq_true, decide_eq_true_eq]
    at hc hd
  have e1 : (surrogatePairToCodePoint c d - 0x10000) / 0x400 + 0xD800 = c.val := by
    simp only [surrogatePairToCodePoint]; omega
  have e2 : (surrogatePairToCodePoint c d - 0x10000) % 0x400 + 0xDC00 = d.val := by
    simp only [surrogatePairToCodePoint]; omega
  unfold utf16Encode
  rw [if_neg (by omega), e1, e2, unit_of_val, unit_of_val]

theorem percent_not_unescaped (c : CodeUnit) (h : isUnescaped c = true) : c ≠ percent := by
  intro hc
  subst hc
  revert h
  decide

theorem encodeURIComponent_cons (c : CodeUnit) (rest : JSString) :
    encodeURIComponent (c :: rest) =
      if isUnescaped c then
        (encodeURIComponent rest).map (fun R => c :: R)
      else if isTrailingSurrogate c then .error .URIError
      else if isLeadingSurrogate c then
        match rest with
        | [] => .error .URIError
        | d :: rest' =>
          if isTrailingSurrogate d then
            (encodeURIComponent rest').map
              (fun R => escapeOctets (utf8Octets (surrogatePairToCodePoint c d)) ++ R)
          else .error .URIError
      else
        (encodeURIComponent rest).map (fun R => escapeOctets (utf8Octets c.val) ++ R) := by
  conv_lhs => rw [encodeURIComponent.eq_def]
  rfl

theorem escapeOctets_length (bs : List Nat) : (escapeOctets bs).length = 3 * bs.length := by
  induction bs with
  | nil => rfl
  | cons b bs ih => simp only [escapeOctets, escapeOctet, List.length_append, List.length_cons,
      List.length_nil, ih]; omega

theorem utf8Octets_length_pos (cp : Nat) : 0 < (utf8Octets cp).length := by
  unfold utf8Octets
  split_ifs <;> exact Nat.succ_pos _

theorem escaped_length_pos (cp : Nat) : 0 < (escapeOctets (utf8Octets cp)).length := by
  have := utf8Octets_length_pos cp
  rw [escapeOctets_length]
  omega

theorem decodeLoop_encode (s : JSString) :
    ∀ e, encodeURIComponent s = .ok e → ∀ fuel, e.length ≤ fuel → decodeLoop fuel e = .ok s := by
  induction s using encodeURIComponent.induct with
  | case1 =>
    intro e h fuel _
    simp only [encodeURIComponent, Except.ok.injEq] at h
    subst h
    cases fuel <;> rfl
  | case2 c rest hu ih =>
    intro e h fuel hf
    rw [encodeURIComponent_cons, if_pos hu] at h
    obtain ⟨e', he', rfl⟩ := except_map_eq_ok (fun R => c :: R) (encodeURIComponent rest) e h
    cases fuel with
    | zero => simp at hf
    | succ fuel =>
      rw [decodeLoop, if_neg (percent_not_unescaped c hu),
        ih e' he' fuel (by simpa using hf)]
      rfl
  | case3 c rest hu ht =>
    intro e h
    rw [encodeURIComponent_cons, if_neg hu, if_pos ht] at h
    cases h
  | case4 c hu ht hl =>
    intro e h
    rw [encodeURIComponent_cons, if_neg hu, if_neg ht, if_pos hl] at h
    cases h
  | case5 c hu ht hl d rest' hd ih =>
    intro e h fuel hf
    rw [encodeURIComponent_cons, if_neg hu, if_neg ht, if_pos hl] at h
    simp only [hd, if_true] at h
    obtain ⟨e', he', hee⟩ := except_map_eq_ok
      (fun R => escapeOctets (utf8Octets (surrogatePairToCodePoint c d)) ++ R)
      (encodeURIComponent rest') e h
    rw [hee] at hf ⊢
    clear hee h
    have hb := surrogatePair_bounds c d hl hd
    cases fuel with
    | zero =>
      exfalso
      have := escaped_length_pos (surrogatePairToCodePoint c d)
      simp only [List.length_append] at hf
      omega
    | succ fuel =>
      have := escaped_length_pos (surrogatePairToCodePoint c d)
      rw [decodeLoop_scalar _ _ _ hb.2 (by omega),
        ih e' he' fuel (by simp only [List.length_append] at hf; omega),
        utf16Encode_surrogatePair c d hl hd]
      rfl
  | case6 c hu ht hl d rest' hd =>
    intro e h
    rw [encodeURIComponent_cons, if_neg hu, if_neg ht, if_pos hl] at h
    simp only [hd] at h
    cases h
  | case7 c rest hu ht hl ih =>
    intro e h fuel hf
    rw [encodeURIComponent_cons, if_neg hu, if_neg ht, if_neg hl] at h
    obtain ⟨e', he', hee⟩ := except_map_eq_ok
      (fun R => escapeOctets (utf8Octets c.val) ++ R) (encodeURIComponent rest) e h
    rw [hee] at hf ⊢
    clear hee h
    have hs : ¬ (0xD800 ≤ c.val ∧ c.val ≤ 0xDFFF) := by
      simp only [isLeadingSurrogate, isTrailingSurrogate, Bool.and_eq_true, decide_eq_true_eq]
        at ht hl
      omega
    have hlt := c.isLt
    cases fuel with
    | zero =>
      exfalso
      have := escaped_length_pos c.val
      simp only [List.length_append] at hf
      omega
    | succ fuel =>
      have := escaped_length_pos c.val
      rw [decodeLoop_scalar _ _ _ (by omega) hs,
        ih e' he' fuel (by simp only [List.length_append] at hf; omega),
        utf16Encode_unit]
      rfl

/-- Decoding with `decodeURIComponent` inverts `encodeURIComponent` wherever the latter
returns. -/
theorem decodeURIComponent_encodeURIComponent (s e : JSString)
    (h : encodeURIComponent s = .ok e) : decodeURIComponent e = .ok s :=
  decodeLoop_encode s e h e.length (Nat.le_refl _)

/-! ## Well-formed strings are exactly the ones `encodeURIComponent` accepts -/

theorem isWellFormed_cons (c : CodeUnit) (rest : JSString) :
    isWellFormed (c :: rest) =
      if isLeadingSurrogate c then
        match rest with
        | [] => false
        | d :: rest' => isTrailingSurrogate d && isWellFormed rest'
      else if isTrailingSurrogate c then false
      else isWellFormed rest := by
  conv_lhs => rw [isWellFormed.eq_def]
  rfl

theorem unescaped_not_surrogate (c : CodeUnit) (h : isUnescaped c = true) :
    isLeadingSurrogate c = false ∧ isTrailingSurrogate c = false := by
  simp only [isUnescaped, Bool.or_eq_true, Bool.and_eq_true, decide_eq_true_eq] at h
  simp only [isLeadingSurrogate, isTrailingSurrogate, Bool.and_eq_false_imp, decide_eq_true_eq,
    decide_eq_false_iff_not]
  omega

theorem surrogate_exclusive (c : CodeUnit) (h : isTrailingSurrogate c = true) :
    isLeadingSurrogate c = false := by
  simp only [isTrailingSurrogate, Bool.and_eq_true, decide_eq_true_eq] at h
  simp only [isLeadingSurrogate, Bool.and_eq_false_imp, decide_eq_true_eq,
    decide_eq_false_iff_not]
  omega

theorem except_map_isOk {ε α β : Type} (f : α → β) (x : Except ε α) :
    (∃ b, x.map f = .ok b) ↔ ∃ a, x = .ok a := by
  cases x with
  | error e => simp [Except.map]
  | ok a => simp [Except.map]

theorem encodeURIComponent_ok_iff (s : JSString) :
    (∃ e, encodeURIComponent s = .ok e) ↔ isWellFormed s = true := by
  induction s using encodeURIComponent.induct with
  | case1 => simp [encodeURIComponent, isWellFormed]
  | case2 c rest hu ih =>
    have hs := unescaped_not_surrogate c hu
    rw [encodeURIComponent_cons, if_pos hu, except_map_isOk, ih, isWellFormed_cons]
    simp [hs.1, hs.2]
  | case3 c rest hu ht =>
    rw [encodeURIComponent_cons, if_neg hu, if_pos ht, isWellFormed_cons]
    simp [surrogate_exclusive c ht, ht]
  | case4 c hu ht hl =>
    rw [encodeURIComponent_cons, if_neg hu, if_neg ht, if_pos hl, isWellFormed_cons]
    simp [hl]
  | case5 c hu ht hl d rest' hd ih =>
    rw [encodeURIComponent_cons, if_neg hu, if_neg ht, if_pos hl, isWellFormed_cons]
    simp only [hd, if_true, hl, Bool.true_and]
    rw [except_map_isOk, ih]
  | case6 c hu ht hl d rest' hd =>
    rw [encodeURIComponent_cons, if_neg hu, if_neg ht, if_pos hl, isWellFormed_cons]
    simp [hl, hd]
  | case7 c rest hu ht hl ih =>
    rw [encodeURIComponent_cons, if_neg hu, if_neg ht, if_neg hl, except_map_isOk, ih,
      isWellFormed_cons]
    simp [hl, ht]

theorem isWellFormed_append (a b : JSString) (ha : isWellFormed a = true) :
    isWellFormed (a ++ b) = isWellFormed b := by
  induction a using isWellFormed.induct with
  | case1 => rfl
  | case2 c hl => simp [isWellFormed_cons, hl] at ha
  | case3 c hl d rest' ih =>
    simp only [isWellFormed_cons, hl, if_true, Bool.and_eq_true] at ha
    rw [List.cons_append, List.cons_append, isWellFormed_cons, if_pos hl]
    simp only [ha.1, Bool.true_and]
    exact ih ha.2
  | case4 c rest hl ht => simp [isWellFormed_cons, hl, ht] at ha
  | case5 c rest hl ht ih =>
    rw [isWellFormed_cons, if_neg hl, if_neg ht] at ha
    rw [List.cons_append, isWellFormed_cons, if_neg hl, if_neg ht]
    exact ih ha

theorem isWellFormed_append_cons (a : JSString) (c : CodeUnit) (b : JSString)
    (hc : isTrailingSurrogate c = false) :
    isWellFormed (a ++ c :: b) = (isWellFormed a && isWellFormed (c :: b)) := by
  induction a using isWellFormed.induct with
  | case1 => simp [isWellFormed]
  | case2 x hl =>
    rw [List.singleton_append, isWellFormed_cons, if_pos hl]
    simp [hc, isWellFormed_cons x [], hl]
  | case3 x hl d rest' ih =>
    rw [List.cons_append, List.cons_append, isWellFormed_cons, if_pos hl,
      isWellFormed_cons x (d :: rest'), if_pos hl]
    simp only [ih, Bool.and_assoc]
  | case4 x rest hl ht =>
    rw [List.cons_append, isWellFormed_cons, if_neg hl, if_pos ht,
      isWellFormed_cons x rest, if_neg hl, if_pos ht]
    rfl
  | case5 x rest hl ht ih =>
    rw [List.cons_append, isWellFormed_cons, if_neg hl, if_neg ht,
      isWellFormed_cons x rest, if_neg hl, if_neg ht]
    exact ih

theorem lit_urlHeading : lit "\n### URL:\n" = lineFeed :: lit "### URL:\n" := by decide

theorem lit_backtraceHeading :
    lit "\n### Backtrace:\n```\n" = lineFeed :: lit "### Backtrace:\n```\n" := by decide

theorem lit_closingFence : lit "\n```\n" = lineFeed :: lit "```\n" := by decide

theorem lineFeed_not_trailing : isTrailingSurrogate lineFeed = false := by decide

theorem reportDocument_eq (r : Report) :
    reportDocument r =
      lit "\n" ++ (r.description ++ lineFeed :: (lit "### URL:\n" ++ (r.url ++ lineFeed ::
        (lit "### Backtrace:\n```\n" ++ (r.backtrace ++ lineFeed :: lit "```\n"))))) := by
  simp only [reportDocument, lit_urlHeading, lit_backtraceHeading, lit_closingFence,
    List.append_assoc, List.cons_append]

theorem isWellFormed_reportDocument (r : Report) :
    isWellFormed (reportDocument r) = isWellFormedReport r := by
  have h0 : isWellFormed (lit "\n") = true := by decide
  have h1 : ∀ s, isWellFormed (lineFeed :: (lit "### URL:\n" ++ s)) = isWellFormed s :=
    fun s => isWellFormed_append (lineFeed :: lit "### URL:\n") s (by decide)
  have h2 : ∀ s, isWellFormed (lineFeed :: (lit "### Backtrace:\n```\n" ++ s))
      = isWellFormed s :=
    fun s => isWellFormed_append (lineFeed :: lit "### Backtrace:\n```\n") s (by decide)
  have h3 : isWellFormed (lineFeed :: lit "```\n") = true := by decide
  rw [reportDocument_eq, isWellFormed_append _ _ h0,
    isWellFormed_append_cons _ _ _ lineFeed_not_trailing, h1,
    isWellFormed_append_cons _ _ _ lineFeed_not_trailing, h2,
    isWellFormed_append_cons _ _ _ lineFeed_not_trailing, h3]
  simp [isWellFormedReport, Bool.and_assoc]

theorem encodeReport_ok_iff (r : Report) :
    (∃ url, encodeReport r = .ok url) ↔ isWellFormedReport r = true := by
  constructor
  · rintro ⟨url, h⟩
    cases hb : encodeURIComponent (reportDocument r) with
    | error e => simp [encodeReport, hb, bind, Except.bind] at h
    | ok body =>
      have := (encodeURIComponent_ok_iff _).1 ⟨body, hb⟩
      rwa [isWellFormed_reportDocument] at this
  · intro h
    have hd : isWellFormed r.description = true := by
      simp only [isWellFormedReport, Bool.and_eq_true] at h
      exact h.1.1
    rw [← isWellFormed_reportDocument] at h
    obtain ⟨body, hb⟩ := (encodeURIComponent_ok_iff _).2 h
    obtain ⟨title, ht⟩ := (encodeURIComponent_ok_iff _).2 hd
    exact ⟨issueURLHead ++ title ++ bodySeparator ++ body,
      by simp [encodeReport, hb, ht, bind, Except.bind, pure, Except.pure]⟩

theorem encodeReport_ok_parts (r : Report) (url : JSString) (h : encodeReport r = .ok url) :
    ∃ title body, encodeURIComponent r.description = .ok title ∧
      encodeURIComponent (reportDocument r) = .ok body ∧
      url = issueURLHead ++ title ++ bodySeparator ++ body := by
  cases hb : encodeURIComponent (reportDocument r) with
  | error e => simp [encodeReport, hb, bind, Except.bind] at h
  | ok body =>
    cases ht : encodeURIComponent r.description with
    | error e => simp [encodeReport, hb, ht, bind, Except.bind] at h
    | ok title =>
      simp only [encodeReport, hb, ht, bind, Except.bind, pure, Except.pure,
        Except.ok.injEq] at h
      exact ⟨title, body, rfl, rfl, h.symm⟩

/-! ## The characters of an encoded component -/

theorem isEscapedForm_cons_unescaped (c : CodeUnit) (rest : JSString)
    (hu : isUnescaped c = true) : isEscapedForm (c :: rest) = isEscapedForm rest := by
  match rest with
  | [] => simp [isEscapedForm, hu]
  | [d] => simp [isEscapedForm, hu]
  | h1 :: h2 :: rest' => rw [isEscapedForm, if_pos hu]

theorem isUpperHexDigit_hexDigit (n : Nat) (h : n < 16) :
    isUpperHexDigit (hexDigit n) = true := by
  interval_cases n <;> rfl

theorem isEscapedForm_escapeOctets (bs : List Nat) (h : ∀ b ∈ bs, b < 256) (R : JSString) :
    isEscapedForm (escapeOctets bs ++ R) = isEscapedForm R := by
  induction bs with
  | nil => rfl
  | cons b bs ih =>
    have hb : b < 256 := h b (List.mem_cons_self b bs)
    have h1 : isUpperHexDigit (hexDigit (b / 16)) = true :=
      isUpperHexDigit_hexDigit _ (by omega)
    have h2 : isUpperHexDigit (hexDigit (b % 16)) = true :=
      isUpperHexDigit_hexDigit _ (by omega)
    have hp : ¬ isUnescaped percent = true := by decide
    simp only [escapeOctets, escapeOctet, List.cons_append, List.nil_append, List.append_assoc]
    rw [isEscapedForm, if_neg hp]
    simp only [h1, h2, decide_True, Bool.true_and]
    exact ih (fun x hx => h x (List.mem_cons_of_mem b hx))

theorem isEscapedForm_encodeURIComponent (s : JSString) :
    ∀ e, encodeURIComponent s = .ok e → isEscapedForm e = true := by
  induction s using encodeURIComponent.induct with
  | case1 =>
    intro e h
    simp only [encodeURIComponent, Except.ok.injEq] at h
    subst h
    rfl
  | case2 c rest hu ih =>
    intro e h
    rw [encodeURIComponent_cons, if_pos hu] at h
    obtain ⟨e', he', hee⟩ := except_map_eq_ok (fun R => c :: R) (encodeURIComponent rest) e h
    rw [hee, isEscapedForm_cons_unescaped c e' hu]
    exact ih e' he'
  | case3 c rest hu ht =>
    intro e h
    rw [encodeURIComponent_cons, if_neg hu, if_pos ht] at h
    cases h
  | case4 c hu ht hl =>
    intro e h
    rw [encodeURIComponent_cons, if_neg hu, if_neg ht, if_pos hl] at h
    cases h
  | case5 c hu ht hl d rest' hd ih =>
    intro e h
    rw [encodeURIComponent_cons, if_neg hu, if_neg ht, if_pos hl] at h
    simp only [hd, if_true] at h
    obtain ⟨e', he', hee⟩ := except_map_eq_ok
      (fun R => escapeOctets (utf8Octets (surrogatePairToCodePoint c d)) ++ R)
      (encodeURIComponent rest') e h
    rw [hee]
    have hb := surrogatePair_bounds c d hl hd
    rw [isEscapedForm_escapeOctets _ (utf8Octets_lt _ hb.2)]
    exact ih e' he'
  | case6 c hu ht hl d rest' hd =>
    intro e h
    rw [encodeURIComponent_cons, if_neg hu, if_neg ht, if_pos hl] at h
    simp only [hd] at h
    cases h
  | case7 c rest hu ht hl ih =>
    intro e h
    rw [encodeURIComponent_cons, if_neg hu, if_neg ht, if_neg hl] at h
    obtain ⟨e', he', hee⟩ := except_map_eq_ok
      (fun R => escapeOctets (utf8Octets c.val) ++ R) (encodeURIComponent rest) e h
    rw [hee]
    have hlt := c.isLt
    rw [isEscapedForm_escapeOctets _ (utf8Octets_lt _ (by omega))]
    exact ih e' he'

theorem isUnescaped_of_upperHex (c : CodeUnit) (h : isUpperHexDigit c = true) :
    isUnescaped c = true := by
  simp only [isUpperHexDigit, Bool.or_eq_true, Bool.and_eq_true, decide_eq_true_eq] at h
  simp only [isUnescaped, Bool.or_eq_true, Bool.and_eq_true, decide_eq_true_eq]
  omega

theorem isEscapedForm_mem (s : JSString) :
    isEscapedForm s = true → ∀ c ∈ s, isUnescaped c = true ∨ c = percent := by
  induction s using isEscapedForm.induct with
  | case1 => intro _ c hc; cases hc
  | case2 c =>
    intro h x hx
    simp only [isEscapedForm] at h
    simp only [List.mem_singleton] at hx
    subst hx
    exact Or.inl h
  | case3 c d =>
    intro h x hx
    simp only [isEscapedForm, Bool.and_eq_true] at h
    simp only [List.mem_cons, List.mem_singleton, List.not_mem_nil, or_false] at hx
    rcases hx with rfl | rfl
    · exact Or.inl h.1
    · exact Or.inl h.2
  | case4 c h1 h2 rest hu ih =>
    intro h x hx
    rw [isEscapedForm, if_pos hu] at h
    rcases List.mem_cons.1 hx with rfl | hx
    · exact Or.inl hu
    · exact ih h x hx
  | case5 c h1 h2 rest hu ih =>
    intro h x hx
    rw [isEscapedForm, if_neg hu] at h
    simp only [Bool.and_eq_true, decide_eq_true_eq] at h
    obtain ⟨⟨⟨hc, hh1⟩, hh2⟩, hr⟩ := h
    rcases List.mem_cons.1 hx with rfl | hx
    · exact Or.inr hc
    rcases List.mem_cons.1 hx with rfl | hx
    · exact Or.inl (isUnescaped_of_upperHex _ hh1)
    rcases List.mem_cons.1 hx with rfl | hx
    · exact Or.inl (isUnescaped_of_upperHex _ hh2)
    · exact ih hr x hx

theorem count_escaped_eq_zero (x : CodeUnit) (hx : isUnescaped x = false) (hp : x ≠ percent)
    (s : JSString) (hs : isEscapedForm s = true) : s.count x = 0 := by
  apply List.count_eq_zero.2
  intro hmem
  rcases isEscapedForm_mem s hs x hmem with h | h
  · rw [hx] at h; cases h
  · exact hp h

/-! ## Reading the document back -/

theorem dropLiteral_append (p s : JSString) : dropLiteral p (p ++ s) = some s := by
  simp [dropLiteral]

theorem dropLiteralEnd_append (p s : JSString) : dropLiteralEnd p (s ++ p) = some s := by
  simp [dropLiteralEnd]

/-- The run `Crash A, Dismiss, Dismiss, Crash A` from the empty seed: one report
is left, two crashes minus one removal on a non-empty queue. -/
theorem queue_length_accounting_witness :
    ((1 : Nat) : Int) = (0 : Nat) + crashCount [.Crash crashA, .Dismiss, .Dismiss, .Crash crashA]
        - removalsWhileNonEmpty ⟨[]⟩ [.Crash crashA, .Dismiss, .Dismiss, .Crash crashA] ∧
      removalsWhileNonEmpty ⟨[]⟩ [.Crash crashA, .Dismiss, .Dismiss, .Crash crashA]
        ≤ 0 + crashCount [.Crash crashA, .Dismiss, .Dismiss, .Crash crashA] :=
  queue_length_accounting [] [.Crash crashA, .Dismiss, .Dismiss, .Crash crashA]
    ⟨[crashA]⟩ [.none, .none, .none, .none] (by decide)

/-! ## The encoder and totality -/

/-- C6: a URL returned by `encodeReport` is the fixed head, then `T`, then
`&body=`, then `B`, where `T` percent-decodes to the description and `B`
percent-decodes to the document made of the description, the URL heading and url,
and the Backtrace heading with the backtrace verbatim between the fence lines. -/
theorem encodeReport_decodes (r : Report) (url : JSString) (h : encodeReport r = .ok url) :
    ∃ T B, url = lit "https://github.com/servo/servo/issues/new?title=" ++ T
        ++ lit "&body=" ++ B ∧
      decodeURIComponent T = .ok r.description ∧
      decodeURIComponent B = .ok (lit "\n" ++ r.description ++ lit "\n### URL:\n" ++ r.url
        ++ lit "\n### Backtrace:\n```\n" ++ r.backtrace ++ lit "\n```\n") := by
  obtain ⟨title, body, ht, hb, hurl⟩ := encodeReport_ok_parts r url h
  exact ⟨title, body, hurl, decodeURIComponent_encodeURIComponent _ _ ht,
    decodeURIComponent_encodeURIComponent _ _ hb⟩

set_option maxRecDepth 100000 in
/-- The URL of the report `Crash A`, `http://x`, `line1`. -/
theorem encodeReport_decodes_witness :
    ∃ T B, crashAURL
        = lit "https://github.com/servo/servo/issues/new?title=" ++ T ++ lit "&body=" ++ B ∧
      decodeURIComponent T = .ok crashA.description ∧
      decodeURIComponent B = .ok (lit "\n" ++ crashA.description ++ lit "\n### URL:\n"
        ++ crashA.url ++ lit "\n### Backtrace:\n```\n" ++ crashA.backtrace ++ lit "\n```\n") :=
  encodeReport_decodes crashA crashAURL (by decide)

/-- C7: in a URL returned by `encodeReport`, what follows the fixed head is `T`,
the separator `&body=` and `B`, with `T` and `B` made only of unescaped
characters and escapes `%XY`; the URL has one `?`, one `&`, two `=` and no `#`,
space or line feed. -/
theorem encodeReport_characters (r : Report) (url : JSString)
    (h : encodeReport r = .ok url) :
    ∃ T B, url = lit "https://github.com/servo/servo/issues/new?title=" ++ T
        ++ lit "&body=" ++ B ∧
      isEscapedForm T = true ∧ isEscapedForm B = true ∧
      url.count (unit '?'.toNat) = 1 ∧ url.count (unit '&'.toNat) = 1 ∧
      url.count (unit '='.toNat) = 2 ∧
      unit '#'.toNat ∉ url ∧ unit ' '.toNat ∉ url ∧ unit '\n'.toNat ∉ url := by
  obtain ⟨title, body, ht, hb, hurl⟩ := encodeReport_ok_parts r url h
  have hT := isEscapedForm_encodeURIComponent _ _ ht
  have hB := isEscapedForm_encodeURIComponent _ _ hb
  have cnt : ∀ x : CodeUnit, isUnescaped x = false → x ≠ percent →
      url.count x = issueURLHead.count x + bodySeparator.count x := by
    intro x hx hp
    rw [hurl]
    simp only [List.count_append, count_escaped_eq_zero x hx hp _ hT,
      count_escaped_eq_zero x hx hp _ hB]
    omega
  refine ⟨title, body, hurl, hT, hB, ?_, ?_, ?_, ?_, ?_, ?_⟩
  · rw [cnt _ (by decide) (by decide)]; decide
  · rw [cnt _ (by decide) (by decide)]; decide
  · rw [cnt _ (by decide) (by decide)]; decide
  · rw [← List.count_eq_zero, cnt _ (by decide) (by decide)]; decide
  · rw [← List.count_eq_zero, cnt _ (by decide) (by decide)]; decide
  · rw [← List.count_eq_zero, cnt _ (by decide) (by decide)]; decide

set_option maxRecDepth 100000 in
/-- The characters of the URL of the report `Crash A`, `http://x`, `line1`. -/
theorem encodeReport_characters_witness :
    ∃ T B, crashAURL
        = lit "https://github.com/servo/servo/issues/new?title=" ++ T ++ lit "&body=" ++ B ∧
      isEscapedForm T = true ∧ isEscapedForm B = true ∧
      crashAURL.count (unit '?'.toNat) = 1 ∧
      crashAURL.count (unit '&'.toNat) = 1 ∧
      crashAURL.count (unit '='.toNat) = 2 ∧
      unit '#'.toNat ∉ crashAURL ∧
      unit ' '.toNat ∉ crashAURL ∧
      unit '\n'.toNat ∉ crashAURL :=
  encodeReport_characters crashA crashAURL (by decide)

set_option maxRecDepth 100000 in
/-- C8, as stated, fails: the reports `headingInDescription` and `headingInURL`
have different descriptions and different urls, and `encodeReport` gives both
the same encoded body, which decodes to the one document of both. -/
theorem encoded_body_collision :
    encodeReport headingInDescription
        = .ok (issueURLHead ++ lit "a%0A%23%23%23%20URL%3A%0Ab" ++ bodySeparator ++ sharedBody) ∧
      encodeReport headingInURL
        = .ok (issueURLHead ++ lit "a" ++ bodySeparator ++ sharedBody) ∧
      decodeURIComponent sharedBody = .ok (reportDocument headingInDescription) ∧
      decodeURIComponent sharedBody = .ok (reportDocument headingInURL) ∧
      headingInDescription.description ≠ headingInURL.description ∧
      headingInDescription.url ≠ headingInURL.url := by
  decide

/-- C9, as stated, fails: `Submit` on a queue whose first report has an unpaired
surrogate in its description raises `URIError`. -/
theorem submit_raises_on_lone_surrogate :
    update ⟨[loneSurrogateReport]⟩ .Submit = .error .URIError := by
  decide

theorem update_ok_iff (model : Model) (action : Action) :
    (∃ result, update model action = .ok result) ↔
      (action = .Submit → ∀ h ∈ model.reports.head?, isWellFormedReport h = true) := by
  obtain ⟨q⟩ := model
  cases action with
  | Crash r => simp [update]
  | Dismiss => simp [update]
  | Submit =>
    cases q with
    | nil => simp [update, submit]
    | cons h t =>
      rw [update_submit_cons, except_map_isOk, encodeReport_ok_iff]
      simp

/-- C9, amended: `update` with `Crash` or `Dismiss` returns a pair for every
state, and `update` with `Submit` returns a pair exactly when the queue is empty
or the three strings of its first report have no unpaired surrogate; the only
exception `update` raises is the `URIError` of `encodeReport`. -/
theorem update_total_on_wellFormed (model : Model) (action : Action) :
    ((∃ result, update model action = .ok result) ↔
      (action = .Submit → ∀ h ∈ model.reports.head?, isWellFormedReport h = true)) ∧
    ((∃ result, update model action = .ok result) ∨ update model action = .error .URIError) := by
  refine ⟨update_ok_iff model action, ?_⟩
  cases hres : update model action with
  | ok result => exact Or.inl ⟨result, rfl⟩
  | error e => cases e; exact Or.inr rfl

/-- C10, as stated, fails: `encodeReport` raises `URIError` on a report whose
backtrace is an unpaired trailing surrogate. -/
theorem encodeReport_raises_on_lone_surrogate :
    encodeReport loneTrailingReport = .error .URIError := by
  decide

/-- C10, amended: `encodeReport` is a function of the report (equal reports give
equal results); it returns a URL exactly for the reports whose description, url
and backtrace have no unpaired surrogate, the empty strings included, and raises
`URIError` for the others. -/
theorem encodeReport_total_on_wellFormed (r : Report) :
    ((∃ url, encodeReport r = .ok url) ↔ isWellFormedReport r = true) ∧
    (isWellFormedReport r = false ↔ encodeReport r = .error .URIError) ∧
    (∀ r' : Report, r' = r → encodeReport r' = encodeReport r) ∧
    (∃ url, encodeReport ⟨[], [], []⟩ = .ok url) := by
  refine ⟨encodeReport_ok_iff r, ?_, fun r' e => by rw [e],
    (encodeReport_ok_iff _).2 (by decide)⟩
  constructor
  · intro hw
    cases hres : encodeReport r with
    | error e => cases e; rfl
    | ok url =>
      have := (encodeReport_ok_iff r).1 ⟨url, hres⟩
      rw [hw] at this
      cases this
  · intro he
    cases hw : isWellFormedReport r with
    | false => rfl
    | true =>
      obtain ⟨url, hurl⟩ := (encodeReport_ok_iff r).2 hw
      rw [he] at hurl
      cases hurl

/-! ## The effect runner, the queue contents and the view -/

theorem execute_silent (task : Task) (host : Host) : task.execute host = .ok [] := by
  unfold Task.execute tryCatch
  cases host task.openURL <;> rfl

theorem dispatch_submit (host : Host) (model : Model) :
    dispatch host model .Submit =
      match update model .Submit with
      | .error e => .error (.inl e)
      | .ok (model', _) => .ok (model', []) := by
  unfold dispatch
  cases hu : update model .Submit with
  | error e => rfl
  | ok p =>
    obtain ⟨model', fx⟩ := p
    cases fx with
    | none => rfl
    | perform task => simp only [execute_silent task host, List.filterMap_nil]

theorem update_submit_queue (model model' : Model) (fx : Effects)
    (h : update model .Submit = .ok (model', fx)) : model'.reports = model.reports.drop 1 := by
  obtain ⟨q⟩ := model
  cases q with
  | nil =>
    simp only [update, submit, Except.ok.injEq, Prod.mk.injEq] at h
    rw [← h.1]; rfl
  | cons r rs =>
    rw [update_submit_cons] at h
    cases hu : encodeReport r with
    | error e => rw [hu] at h; cases h
    | ok url =>
      rw [hu] at h
      simp only [Except.map, Except.ok.injEq, Prod.mk.injEq] at h
      rw [← h.1]; rfl

/-- C11: the task built by `openURLInDefaultBrowser` lets no exception of the
host call escape and calls neither `succeed` nor `fail`; a turn of `Submit` has
the same outcome on any two hosts, and when it returns, the queue is the tail of
the old queue and no action is fed back into `update`. -/
theorem host_outcome_never_observed (host host' : Host) (model : Model) (url : JSString) :
    (openURLInDefaultBrowser url).execute host = .ok [] ∧
    dispatch host model .Submit = dispatch host' model .Submit ∧
    ∀ model' followUps, dispatch host model .Submit = .ok (model', followUps) →
      model'.reports = model.reports.drop 1 ∧ followUps = [] := by
  refine ⟨execute_silent _ host, ?_, ?_⟩
  · rw [dispatch_submit, dispatch_submit]
  · intro model' followUps h
    rw [dispatch_submit] at h
    cases hu : update model .Submit with
    | error e => rw [hu] at h; cases h
    | ok p =>
      obtain ⟨m, fx⟩ := p
      rw [hu] at h
      simp only [Except.ok.injEq, Prod.mk.injEq] at h
      rw [← h.1, ← h.2]
      exact ⟨update_submit_queue model m fx hu, rfl⟩

set_option maxRecDepth 100000 in
/-- Submitting `Crash A` on a host that throws and on one that works. -/
theorem host_outcome_never_observed_witness :
    dispatch failingHost ⟨[crashA]⟩ .Submit = .ok (⟨[]⟩, []) ∧
    dispatch workingHost ⟨[crashA]⟩ .Submit = .ok (⟨[]⟩, []) ∧
    (openURLInDefaultBrowser crashAURL).execute failingHost = .ok [] :=
  ⟨by decide,
   (host_outcome_never_observed failingHost workingHost ⟨[crashA]⟩ crashAURL).2.1 ▸ by decide,
   (host_outcome_never_observed failingHost workingHost ⟨[crashA]⟩ crashAURL).1⟩

theorem update_queue_sublist (model model' : Model) (a : Action) (fx : Effects)
    (h : update model a = .ok (model', fx)) :
    List.Sublist model'.reports ((crashReports [a]).reverse ++ model.reports) := by
  cases a with
  | Crash r =>
    simp only [update, report, Except.ok.injEq, Prod.mk.injEq] at h
    rw [← h.1]
    simp [crashReports]
  | Dismiss =>
    simp only [update, dismiss, Except.ok.injEq, Prod.mk.injEq] at h
    rw [← h.1]
    simpa [crashReports] using List.drop_sublist 1 model.reports
  | Submit =>
    rw [update_submit_queue model model' fx h]
    simpa [crashReports] using List.drop_sublist 1 model.reports

theorem crashReports_cons (a : Action) (rest : List Action) :
    crashReports (a :: rest) = crashReports [a] ++ crashReports rest := by
  cases a <;> simp [crashReports]

theorem run_queue_sublist (actions : List Action) :
    ∀ (model final : Model) (fxs : List Effects), run model actions = .ok (final, fxs) →
      List.Sublist final.reports ((crashReports actions).reverse ++ model.reports) := by
  induction actions with
  | nil =>
    intro model final fxs h
    simp only [run, Except.ok.injEq, Prod.mk.injEq] at h
    simp [crashReports, h.1]
  | cons a rest ih =>
    intro model final fxs h
    simp only [run] at h
    cases hu : update model a with
    | error e => rw [hu] at h; cases h
    | ok p =>
      obtain ⟨model', fx⟩ := p
      rw [hu] at h
      dsimp only at h
      cases hr : run model' rest with
      | error e => rw [hr] at h; cases h
      | ok q =>
        obtain ⟨final', fxs'⟩ := q
        rw [hr] at h
        simp only [Except.ok.injEq, Prod.mk.injEq] at h
        have h1 := ih model' final' fxs' hr
        have h2 := update_queue_sublist model model' a fx hu
        rw [h.1] at h1
        rw [crashReports_cons, List.reverse_append, List.append_assoc]
        exact h1.trans (List.Sublist.append (List.Sublist.refl _) h2)

/-- C13, as stated, fails: after `Crash A` then `Crash B` from `init([])` the
displayed report is `Crash B`, the one issued last, not `Crash A`, the oldest. -/
theorem newest_displayed_not_oldest :
    run (init (some [])).1 [.Crash crashA, .Crash crashB]
        = .ok (⟨[crashB, crashA]⟩, [.none, .none]) ∧
      displayedReport ⟨[crashB, crashA]⟩ = some crashB ∧
      displayedReport ⟨[crashB, crashA]⟩ ≠ some crashA := by
  decide

theorem run_crashes (rs : List Report) :
    ∀ model : Model, run model (rs.map .Crash)
      = .ok (⟨rs.reverse ++ model.reports⟩, List.replicate rs.length Effects.none) := by
  induction rs with
  | nil => intro model; rfl
  | cons r rs ih =>
    intro model
    simp only [List.map_cons, run, update, report, ih, List.reverse_cons, List.append_assoc,
      List.singleton_append, List.length_cons, List.replicate_succ]

theorem displayedReport_eq_head (model : Model) :
    displayedReport model = model.reports.head? := by
  obtain ⟨q⟩ := model
  cases q <;> simp [displayedReport]

/-- C13, amended: the display order is newest-first. After `Crash` actions only,
from `init([])`, the queue holds the reports in reverse order of arrival and the
displayed report is the one whose `Crash` action was issued last. -/
theorem newest_displayed (rs : List Report) :
    ∃ final fxs, run (init (some [])).1 (rs.map .Crash) = .ok (final, fxs) ∧
      final.reports = rs.reverse ∧ displayedReport final = rs.getLast? := by
  refine ⟨⟨rs.reverse ++ []⟩, _, run_crashes rs ⟨[]⟩, by simp, ?_⟩
  rw [displayedReport_eq_head]
  simp [List.head?_reverse]

set_option maxRecDepth 100000 in
/-- C14: the scenario, step by step, for `Crash A` and any report `Crash B`:
after `Crash A` it is displayed; after `Crash B` that one is displayed and the
length is 2; after `Dismiss` `Crash A` is displayed and the length is 1; `Submit`
empties the queue with the effect opening a URL that contains `title=Crash%20A`
and whose body contains `line1`; a second `Submit` gives no effect and the empty
queue. -/
theorem scenario (u b : JSString) :
    update (init (some [])).1 (.Crash crashA) = .ok (⟨[crashA]⟩, .none) ∧
    displayedReport ⟨[crashA]⟩ = some crashA ∧
    update ⟨[crashA]⟩ (.Crash ⟨lit "Crash B", u, b⟩)
      = .ok (⟨[⟨lit "Crash B", u, b⟩, crashA]⟩, .none) ∧
    displayedReport ⟨[⟨lit "Crash B", u, b⟩, crashA]⟩ = some ⟨lit "Crash B", u, b⟩ ∧
    (Model.mk [⟨lit "Crash B", u, b⟩, crashA]).reports.length = 2 ∧
    update ⟨[⟨lit "Crash B", u, b⟩, crashA]⟩ .Dismiss = .ok (⟨[crashA]⟩, .none) ∧
    (Model.mk [crashA]).reports.length = 1 ∧
    update ⟨[crashA]⟩ .Submit
      = .ok (⟨[]⟩, .perform (openURLInDefaultBrowser crashAURL)) ∧
    List.IsInfix (lit "title=Crash%20A") crashAURL ∧
    (∃ T B, crashAURL = issueURLHead ++ T ++ bodySeparator ++ B ∧
      List.IsInfix (lit "line1") B) ∧
    update ⟨[]⟩ .Submit = .ok (⟨[]⟩, .none) := by
  refine ⟨rfl, rfl, rfl, rfl, rfl, rfl, rfl, by decide, ?_, ?_, rfl⟩
  · exact ⟨lit "https://github.com/servo/servo/issues/new?", lit "&body=%0ACrash%20A%0A%23%23%23%20URL%3A%0Ahttp%3A%2F%2Fx%0A%23%23%23%20Backtrace%3A%0A%60%60%60%0Aline1%0A%60%60%60%0A", by decide⟩
  · exact ⟨lit "Crash%20A", lit "%0ACrash%20A%0A%23%23%23%20URL%3A%0Ahttp%3A%2F%2Fx%0A%23%23%23%20Backtrace%3A%0A%60%60%60%0Aline1%0A%60%60%60%0A", by decide,
      lit "%0ACrash%20A%0A%23%23%23%20URL%3A%0Ahttp%3A%2F%2Fx%0A%23%23%23%20Backtrace%3A%0A%60%60%60%0A", lit "%0A%60%60%60%0A", by decide⟩

theorem render_cons (h : Report) (t : List Report) (address : Address) :
    render ⟨h :: t⟩ address = renderReport h address := by
  simp [render]

/-- C15: `render` gives the closed dialog exactly when the queue is empty, and
otherwise the dialog of `renderReport` on the first report, whose header holds
the description and url and whose `pre` holds the backtrace; two states with the
same first report render the same. -/
theorem render_head_only (model : Model) (address : Address) :
    ((render model address).isOpen = false ↔ model.reports = []) ∧
    (model.reports = [] → render model address = ⟨false, none, []⟩) ∧
    (∀ h t, model.reports = h :: t →
      render model address = renderReport h address ∧
      (render model address).children.map Element.children =
        [ [lit "Servo has encountered a problem: " ++ h.description ++ lit " (" ++ h.url
            ++ lit ")"]
        , [lit "✕"], [h.backtrace], [lit "Click to submit report"]
        , [lit "github.com will open in your default browser, with a prefilled issue"] ]) ∧
    (∀ model' : Model, model'.reports.head? = model.reports.head? →
      render model' address = render model address) := by
  obtain ⟨q⟩ := model
  cases q with
  | nil =>
    refine ⟨?_, ?_, ?_, ?_⟩
    · simp [render]
    · intro _; simp [render]
    · intro h t e; cases e
    · intro model' hm
      obtain ⟨q'⟩ := model'
      cases q' with
      | nil => rfl
      | cons h' t' => cases hm
  | cons h t =>
    refine ⟨?_, ?_, ?_, ?_⟩
    · simp [render_cons, renderReport]
    · intro e; cases e
    · intro h' t' e
      simp only [List.cons.injEq] at e
      rw [← e.1]
      exact ⟨render_cons h t address, by simp [render_cons, renderReport]⟩
    · intro model' hm
      obtain ⟨q'⟩ := model'
      cases q' with
      | nil => cases hm
      | cons h' t' =>
        simp only [List.head?_cons, Option.some.injEq] at hm
        rw [render_cons, render_cons, hm]

/-- Two queues with the first report `Crash A` and different reports behind it. -/
theorem render_head_only_witness :
    render ⟨[crashA, crashB]⟩ ⟨0⟩ = render ⟨[crashA]⟩ ⟨0⟩ :=
  (render_head_only ⟨[crashA]⟩ ⟨0⟩).2.2.2 ⟨[crashA, crashB]⟩ rfl

/-- C16: whenever `update` with `Submit` and `update` with `Dismiss` return on the
same state, the two returned states are equal, with the queue `slice(1)` of the
old one; `Dismiss` has no effect, so the results differ at most in the effect. -/
theorem submit_dismiss_same_state (model ms md : Model) (fxs fxd : Effects)
    (hs : update model .Submit = .ok (ms, fxs)) (hd : update model .Dismiss = .ok (md, fxd)) :
    ms = md ∧ ms.reports = model.reports.drop 1 ∧ fxd = Effects.none := by
  have h1 := update_submit_queue model ms fxs hs
  simp only [update, dismiss, Except.ok.injEq, Prod.mk.injEq] at hd
  refine ⟨?_, h1, hd.2.symm⟩
  rw [← hd.1]
  obtain ⟨q⟩ := ms
  simp only at h1
  rw [h1]

set_option maxRecDepth 100000 in
/-- Submit and Dismiss on the queue `[Crash A, Crash B]`. -/
theorem submit_dismiss_same_state_witness :
    (Model.mk [crashB]) = ⟨[crashB]⟩ ∧
      (Model.mk [crashB]).reports = (Model.mk [crashA, crashB]).reports.drop 1 ∧
      Effects.none = Effects.none :=
  submit_dismiss_same_state ⟨[crashA, crashB]⟩ ⟨[crashB]⟩ ⟨[crashB]⟩
    (.perform (openURLInDefaultBrowser crashAURL)) .none (by decide) (by decide)

/-- C17: `Crash r` followed by `Dismiss` gives back the queue of the state it
started from, with no effect, and so does `Crash r` followed by `Submit`, with
the one effect opening the URL of `r` (an exception of `encodeReport r` is the
only other outcome); the report displayed before is displayed again. -/
theorem crash_then_removal (s : Model) (r : Report) :
    run s [.Crash r, .Dismiss] = .ok (⟨s.reports⟩, [.none, .none]) ∧
    run s [.Crash r, .Submit] =
      (encodeReport r).map (fun url =>
        ((⟨s.reports⟩ : Model),
          [Effects.none, Effects.perform (openURLInDefaultBrowser url)])) ∧
    displayedReport ⟨s.reports⟩ = displayedReport s := by
  refine ⟨rfl, ?_, rfl⟩
  cases hu : encodeReport r <;>
    simp [run, update, report, submit, hu, Except.map, bind, Except.bind, pure, Except.pure]

theorem update_queue_perm (model model' : Model) (a : Action) (fx : Effects)
    (h : update model a = .ok (model', fx)) :
    List.Perm
      ((if isRemoval a then (displayedReport model).toList else []) ++ model'.reports)
      ((crashReports [a]).reverse ++ model.reports) := by
  obtain ⟨q⟩ := model
  cases a with
  | Crash r =>
    simp only [update, report, Except.ok.injEq, Prod.mk.injEq] at h
    rw [← h.1]
    simp [crashReports, isRemoval]
  | Dismiss =>
    simp only [update, dismiss, Except.ok.injEq, Prod.mk.injEq] at h
    rw [← h.1]
    cases q <;> simp [crashReports, isRemoval, displayedReport]
  | Submit =>
    rw [update_submit_queue _ model' fx h]
    cases q <;> simp [crashReports, isRemoval, displayedReport]

theorem run_queue_perm (actions : List Action) :
    ∀ (model final : Model) (fxs : List Effects), run model actions = .ok (final, fxs) →
      List.Perm (final.reports ++ removedReports model actions)
        ((crashReports actions).reverse ++ model.reports) := by
  induction actions with
  | nil =>
    intro model final fxs h
    simp only [run, Except.ok.injEq, Prod.mk.injEq] at h
    simp [crashReports, removedReports, h.1]
  | cons a rest ih =>
    intro model final fxs h
    simp only [run] at h
    cases hu : update model a with
    | error e => rw [hu] at h; cases h
    | ok p =>
      obtain ⟨model', fx⟩ := p
      rw [hu] at h
      dsimp only at h
      cases hr : run model' rest with
      | error e => rw [hr] at h; cases h
      | ok q =>
        obtain ⟨final', fxs'⟩ := q
        rw [hr] at h
        simp only [Except.ok.injEq, Prod.mk.injEq] at h
        have h1 := ih model' final' fxs' hr
        have h2 := update_queue_perm model model' a fx hu
        rw [h.1] at h1
        rw [crashReports_cons, List.reverse_append, List.append_assoc]
        simp only [removedReports, hu]
        generalize (if isRemoval a = true then (displayedReport model).toList else []) = gone
          at h2 ⊢
        have e1 : List.Perm (final.reports ++ (gone ++ removedReports model' rest))
            (gone ++ (final.reports ++ removedReports model' rest)) := by
          rw [← List.append_assoc, ← List.append_assoc]
          exact List.Perm.append_right _ List.perm_append_comm
        have e2 : List.Perm (gone ++ ((crashReports rest).reverse ++ model'.reports))
            ((crashReports rest).reverse ++ (gone ++ model'.reports)) := by
          rw [← List.append_assoc, ← List.append_assoc]
          exact List.Perm.append_right _ List.perm_append_comm
        exact e1.trans ((List.Perm.append_left _ h1).trans
          (e2.trans (List.Perm.append_left _ h2)))

theorem run_append (pre post : List Action) :
    ∀ (model mid final : Model) (fxs1 fxs : List Effects),
      run model pre = .ok (mid, fxs1) → run model (pre ++ post) = .ok (final, fxs) →
      ∃ fxs2, run mid post = .ok (final, fxs2) := by
  induction pre with
  | nil =>
    intro model mid final fxs1 fxs h1 h
    simp only [run, Except.ok.injEq, Prod.mk.injEq] at h1
    rw [← h1.1]
    exact ⟨fxs, h⟩
  | cons a pre ih =>
    intro model mid final fxs1 fxs h1 h
    simp only [List.cons_append, run] at h1 h
    cases hu : update model a with
    | error e => rw [hu] at h; cases h
    | ok p =>
      obtain ⟨model', fx⟩ := p
      rw [hu] at h h1
      dsimp only at h h1
      simp only [List.append_eq] at h
      cases hr1 : run model' pre with
      | error e => rw [hr1] at h1; cases h1
      | ok q1 =>
        obtain ⟨mid', f1⟩ := q1
        rw [hr1] at h1
        simp only [Except.ok.injEq, Prod.mk.injEq] at h1
        cases hr : run model' (pre ++ post) with
        | error e => rw [hr] at h; cases h
        | ok q =>
          obtain ⟨final', f⟩ := q
          rw [hr] at h
          simp only [Except.ok.injEq, Prod.mk.injEq] at h
          rw [← h1.1, ← h.1]
          exact ih model' mid' final' f1 f hr1 hr

theorem run_after_removal (a : Action) (post : List Action) (mid final : Model)
    (fxs : List Effects) (ha : isRemoval a = true) (h : run mid (a :: post) = .ok (final, fxs)) :
    List.Sublist final.reports ((crashReports post).reverse ++ mid.reports.drop 1) := by
  simp only [run] at h
  cases hu : update mid a with
  | error e => rw [hu] at h; cases h
  | ok p =>
    obtain ⟨model', fx⟩ := p
    rw [hu] at h
    dsimp only at h
    cases hr : run model' post with
    | error e => rw [hr] at h; cases h
    | ok q =>
      obtain ⟨final', f⟩ := q
      rw [hr] at h
      simp only [Except.ok.injEq, Prod.mk.injEq] at h
      have h1 := run_queue_sublist post model' final' f hr
      rw [h.1] at h1
      have hq : model'.reports = mid.reports.drop 1 := by
        cases a with
        | Crash r => cases ha
        | Dismiss =>
          simp only [update, dismiss, Except.ok.injEq, Prod.mk.injEq] at hu
          rw [← hu.1]
        | Submit => exact update_submit_queue mid model' fx hu
      rw [← hq]
      exact h1

/-- C12: after a run of actions from `init(seed)` the queue holds exactly the
reports that were seeded or enqueued and not removed. It is a sublist of the
reports of the `Crash` actions in reverse order of arrival followed by the seed;
together with the reports removed by `Dismiss` and `Submit` it is a permutation
of all arrivals, so each arrival is either in the queue or removed, never both;
when the arrivals are pairwise distinct no removed report is in the queue; and
after any removal in the middle of the run, the final queue is made only of what
that removal left and of the reports that arrived later. -/
theorem queue_holds_pending (seed : List Report) (actions : List Action)
    (final : Model) (fxs : List Effects)
    (h : run (init (some seed)).1 actions = .ok (final, fxs)) :
    List.Sublist final.reports ((crashReports actions).reverse ++ seed) ∧
    List.Perm (final.reports ++ removedReports ⟨seed⟩ actions)
      ((crashReports actions).reverse ++ seed) ∧
    (List.Nodup ((crashReports actions).reverse ++ seed) →
      ∀ r ∈ removedReports ⟨seed⟩ actions, r ∉ final.reports) ∧
    (∀ (pre : List Action) (a : Action) (post : List Action) (mid : Model)
        (fxs1 : List Effects),
      actions = pre ++ a :: post → isRemoval a = true → run ⟨seed⟩ pre = .ok (mid, fxs1) →
      List.Sublist final.reports ((crashReports post).reverse ++ mid.reports.drop 1)) := by
  have hp := run_queue_perm actions ⟨seed⟩ final fxs h
  refine ⟨run_queue_sublist actions ⟨seed⟩ final fxs h, hp, ?_, ?_⟩
  · intro hn r hr hq
    have hnd : List.Nodup (final.reports ++ removedReports ⟨seed⟩ actions) :=
      (List.Perm.nodup_iff hp).2 hn
    exact (List.nodup_append.1 hnd).2.2 hq hr
  · intro pre a post mid fxs1 hsplit ha hpre
    subst hsplit
    obtain ⟨fxs2, h2⟩ := run_append pre (a :: post) ⟨seed⟩ mid final fxs1 fxs hpre h
    exact run_after_removal a post mid final fxs2 ha h2

/-- The run `Crash A, Crash B, Dismiss` from the empty seed: `Crash B` was
removed and is not in the final queue `[Crash A]`. -/
theorem queue_holds_pending_witness :
    removedReports ⟨[]⟩ [.Crash crashA, .Crash crashB, .Dismiss] = [crashB] ∧
      crashB ∉ (Model.mk [crashA]).reports :=
  ⟨by decide,
   (queue_holds_pending [] [.Crash crashA, .Crash crashB, .Dismiss] ⟨[crashA]⟩
      [.none, .none, .none] (by decide)).2.2.1 (by decide) crashB (by decide)⟩

/-! ## Reading the document back at the first separators -/

theorem splitAtFirst_cons (sep : JSString) (c : CodeUnit) (rest : JSString) :
    splitAtFirst sep (c :: rest) =
      if sep.isPrefixOf (c :: rest) then some ([], (c :: rest).drop sep.length)
      else (splitAtFirst sep rest).map (fun p => (c :: p.1, p.2)) := by
  rw [splitAtFirst]

theorem splitAtFirst_eq (sep : JSString) :
    ∀ s a b, splitAtFirst sep s = some (a, b) → s = a ++ sep ++ b := by
  intro s
  induction s with
  | nil =>
    intro a b h
    unfold splitAtFirst at h
    split_ifs at h with hs
    simp only [Option.some.injEq, Prod.mk.injEq] at h
    rw [← h.1, ← h.2, hs]
    rfl
  | cons c rest ih =>
    intro a b h
    rw [splitAtFirst_cons] at h
    split_ifs at h with hp
    · simp only [Option.some.injEq, Prod.mk.injEq] at h
      obtain ⟨t, ht⟩ := List.isPrefixOf_iff_prefix.1 hp
      rw [← h.1, ← h.2, ← ht]
      simp
    · cases hr : splitAtFirst sep rest with
      | none => rw [hr] at h; cases h
      | some p =>
        obtain ⟨a', b'⟩ := p
        rw [hr] at h
        simp only [Option.map_some', Option.some.injEq, Prod.mk.injEq] at h
        rw [← h.1, ← h.2, ih a' b' hr]
        simp

theorem not_infix_dropLast (sep : JSString) (hs : sep ≠ []) :
    ¬ List.IsInfix sep sep.dropLast := by
  intro h
  have := h.length_le
  have hl : 0 < sep.length := List.length_pos.2 hs
  simp only [List.length_dropLast] at this
  omega

theorem dropLast_append_leading (sep a b : JSString) :
    List.IsPrefix (a ++ sep.dropLast) (a ++ sep ++ b) := by
  rw [List.append_assoc]
  exact (List.prefix_append_right_inj a).2
    ((List.dropLast_prefix sep).trans (List.prefix_append sep b))

theorem splitAtFirst_first (sep : JSString) (hs : sep ≠ []) :
    ∀ s a b, splitAtFirst sep s = some (a, b) → ¬ List.IsInfix sep (a ++ sep.dropLast) := by
  intro s
  induction s with
  | nil =>
    intro a b h
    unfold splitAtFirst at h
    rw [if_neg hs] at h
    cases h
  | cons c rest ih =>
    intro a b h
    have hall := splitAtFirst_eq sep _ a b h
    rw [splitAtFirst_cons] at h
    split_ifs at h with hp
    · simp only [Option.some.injEq, Prod.mk.injEq] at h
      rw [← h.1]
      exact not_infix_dropLast sep hs
    · cases hr : splitAtFirst sep rest with
      | none => rw [hr] at h; cases h
      | some p =>
        obtain ⟨a', b'⟩ := p
        rw [hr] at h
        simp only [Option.map_some', Option.some.injEq, Prod.mk.injEq] at h
        rw [← h.1]
        rw [List.cons_append, List.infix_cons_iff]
        rintro (hpre | hin)
        · apply hp
          rw [List.isPrefixOf_iff_prefix, hall, ← h.1]
          exact hpre.trans (dropLast_append_leading sep (c :: a') b)
        · exact ih a' b' hr hin

theorem splitAtFirst_of_prefix (sep s : JSString) (hs : sep ≠ [])
    (hp : List.IsPrefix sep s) : splitAtFirst sep s = some ([], s.drop sep.length) := by
  cases s with
  | nil => exact absurd (List.prefix_nil.1 hp) hs
  | cons c rest =>
    rw [splitAtFirst_cons, if_pos (List.isPrefixOf_iff_prefix.2 hp)]

theorem splitAtFirst_append (sep : JSString) (hs : sep ≠ []) (b : JSString) :
    ∀ a, ¬ List.IsInfix sep (a ++ sep.dropLast) →
      splitAtFirst sep (a ++ sep ++ b) = some (a, b) := by
  intro a
  induction a with
  | nil =>
    intro _
    rw [List.nil_append, splitAtFirst_of_prefix sep _ hs (List.prefix_append sep b)]
    simp
  | cons c a ih =>
    intro h
    rw [List.cons_append, List.infix_cons_iff, not_or] at h
    have hnp : ¬ sep.isPrefixOf (c :: (a ++ sep ++ b)) = true := by
      intro hp
      apply h.1
      have h1 := List.isPrefixOf_iff_prefix.1 hp
      have h2 : List.IsPrefix (c :: (a ++ sep.dropLast)) (c :: (a ++ sep ++ b)) :=
        dropLast_append_leading sep (c :: a) b
      apply List.prefix_of_prefix_length_le h1 h2
      have hl : 0 < sep.length := List.length_pos.2 hs
      simp only [List.length_cons, List.length_append, List.length_dropLast]
      omega
    rw [List.cons_append, List.cons_append, splitAtFirst_cons, if_neg hnp, ih h.2]
    rfl

theorem splitAtFirst_exists (sep : JSString) (hs : sep ≠ []) (b : JSString) :
    ∀ a, ∃ a' z, splitAtFirst sep (a ++ sep ++ b) = some (a', z ++ b) := by
  intro a
  induction a with
  | nil =>
    refine ⟨[], [], ?_⟩
    rw [List.nil_append, splitAtFirst_of_prefix sep _ hs (List.prefix_append sep b)]
    simp
  | cons c a ih =>
    by_cases hp : sep.isPrefixOf (c :: (a ++ sep ++ b)) = true
    · refine ⟨[], (c :: (a ++ sep)).drop sep.length, ?_⟩
      rw [List.cons_append, List.cons_append, splitAtFirst_cons, if_pos hp]
      have hle : sep.length ≤ (c :: (a ++ sep)).length := by
        simp only [List.length_cons, List.length_append]; omega
      rw [← List.drop_append_of_le_length hle]
      simp
    · obtain ⟨a', z, h⟩ := ih
      refine ⟨c :: a', z, ?_⟩
      rw [List.cons_append, List.cons_append, splitAtFirst_cons, if_neg hp, h]
      rfl

theorem reportDocument_parts (r : Report) :
    reportDocument r =
      lit "\n" ++ (r.description ++ lit "\n### URL:\n"
        ++ (r.url ++ lit "\n### Backtrace:\n```\n" ++ (r.backtrace ++ lit "\n```\n"))) := by
  simp only [reportDocument, List.append_assoc]

theorem urlHeading_ne_nil : lit "\n### URL:\n" ≠ [] := by decide

theorem backtraceHeading_ne_nil : lit "\n### Backtrace:\n```\n" ≠ [] := by decide

theorem urlHeading_dropLast : (lit "\n### URL:\n").dropLast = lit "\n### URL:" := by decide

theorem backtraceHeading_dropLast :
    (lit "\n### Backtrace:\n```\n").dropLast = lit "\n### Backtrace:\n```" := by decide

theorem parseDocument_of_separable (r : Report) (h : isSeparable r) :
    parseDocument (reportDocument r) = some r := by
  obtain ⟨hd, hu⟩ := h
  rw [← urlHeading_dropLast] at hd
  rw [← backtraceHeading_dropLast] at hu
  rw [reportDocument_parts, parseDocument, dropLiteral_append]
  simp only [Option.some_bind, splitAtFirst_append _ urlHeading_ne_nil _ _ hd,
    splitAtFirst_append _ backtraceHeading_ne_nil _ _ hu, dropLiteralEnd_append,
    Option.map_some']

theorem parseDocument_total (r : Report) :
    ∃ r', parseDocument (reportDocument r) = some r' ∧ isSeparable r' ∧
      reportDocument r' = reportDocument r := by
  obtain ⟨d', z1, h1⟩ := splitAtFirst_exists (lit "\n### URL:\n") urlHeading_ne_nil
    (r.url ++ lit "\n### Backtrace:\n```\n" ++ (r.backtrace ++ lit "\n```\n")) r.description
  have e2 : z1 ++ (r.url ++ lit "\n### Backtrace:\n```\n" ++ (r.backtrace ++ lit "\n```\n"))
      = (z1 ++ r.url) ++ lit "\n### Backtrace:\n```\n" ++ (r.backtrace ++ lit "\n```\n") := by
    simp only [List.append_assoc]
  obtain ⟨u', z2, h2⟩ := splitAtFirst_exists (lit "\n### Backtrace:\n```\n")
    backtraceHeading_ne_nil (r.backtrace ++ lit "\n```\n") (z1 ++ r.url)
  rw [← e2] at h2
  have e3 : z2 ++ (r.backtrace ++ lit "\n```\n") = (z2 ++ r.backtrace) ++ lit "\n```\n" := by
    simp only [List.append_assoc]
  have hparse : parseDocument (reportDocument r) = some ⟨d', u', z2 ++ r.backtrace⟩ := by
    rw [reportDocument_parts, parseDocument, dropLiteral_append]
    simp only [Option.some_bind, h1, h2, e3, dropLiteralEnd_append, Option.map_some']
  refine ⟨⟨d', u', z2 ++ r.backtrace⟩, hparse, ⟨?_, ?_⟩, ?_⟩
  · rw [← urlHeading_dropLast]
    exact splitAtFirst_first _ urlHeading_ne_nil _ _ _ h1
  · rw [← backtraceHeading_dropLast]
    exact splitAtFirst_first _ backtraceHeading_ne_nil _ _ _ h2
  · have q1 := splitAtFirst_eq _ _ _ _ h1
    have q2 := splitAtFirst_eq _ _ _ _ h2
    rw [reportDocument_parts, reportDocument_parts, q1, q2, e3]

theorem parseDocument_eq_iff (r : Report) :
    parseDocument (reportDocument r) = some r ↔ isSeparable r := by
  constructor
  · intro h
    obtain ⟨r', h', hs, _⟩ := parseDocument_total r
    rw [h] at h'
    rw [Option.some.inj h']
    exact hs
  · exact parseDocument_of_separable r

set_option maxRecDepth 100000 in
/-- C8, amended: the one function `recoverReport` gives back, from the encoded
body `B` of the URL that `encodeReport` returns, the report whose document has
the separators of `encodeReport` as its first ones. It gives back `r` exactly
when `r` is such a report (`isSeparable`), so two such reports with the same
encoded body are equal; and for every report it gives back such a report with
the same encoded body, so a report outside the class shares its body with a
different report inside it. The report with the two-line description
`panicked at x`, `note: y` is in the class. -/
theorem recoverReport_encodeReport (r : Report) (url : JSString)
    (h : encodeReport r = .ok url) :
    ∃ T B, url = issueURLHead ++ T ++ bodySeparator ++ B ∧
      encodeURIComponent (reportDocument r) = .ok B ∧
      (recoverReport B = some r ↔ isSeparable r) ∧
      (∀ r2 : Report, isSeparable r → isSeparable r2 →
        encodeURIComponent (reportDocument r2) = .ok B → r2 = r) ∧
      (∃ r' : Report, recoverReport B = some r' ∧ isSeparable r' ∧
        encodeURIComponent (reportDocument r') = .ok B) ∧
      isSeparable twoLineReport := by
  obtain ⟨title, body, _, hb, hurl⟩ := encodeReport_ok_parts r url h
  have key : ∀ x : Report, encodeURIComponent (reportDocument x) = .ok body →
      recoverReport body = parseDocument (reportDocument x) := by
    intro x hx
    simp only [recoverReport, decodeURIComponent_encodeURIComponent _ _ hx]
  refine ⟨title, body, hurl, hb, ?_, ?_, ?_, by decide⟩
  · rw [key r hb]
    exact parseDocument_eq_iff r
  · intro r2 hs hs2 hb2
    have h1 := key r hb
    have h2 := key r2 hb2
    rw [parseDocument_of_separable r hs] at h1
    rw [parseDocument_of_separable r2 hs2, h1] at h2
    exact (Option.some.inj h2).symm
  · obtain ⟨r', hp, hs, hdoc⟩ := parseDocument_total r
    refine ⟨r', ?_, hs, ?_⟩
    · rw [key r hb]; exact hp
    · rw [hdoc]; exact hb

set_option maxRecDepth 100000 in
/-- The report with the two-line description is read back from its URL. -/
theorem recoverReport_encodeReport_witness :
    ∃ T B, twoLineURL = issueURLHead ++ T ++ bodySeparator ++ B ∧
      recoverReport B = some twoLineReport := by
  obtain ⟨T, B, h1, _, h3, _⟩ :=
    recoverReport_encodeReport twoLineReport twoLineURL (by decide)
  exact ⟨T, B, h1, h3.2 (by decide)⟩

end IssueReporter
